import Mathlib

/-!
Verification development for the defect-detection desktop application.

The definitions below are a shallow embedding of the program's core:

* `detection.py` — `DetectionThread.annotate_frame` (object tracking and
  line-crossing detection), `count_detections`, and `handle_detections`
  (the consecutive-defect watchdog and the per-detection result emissions);
* `database.py` — `Database.insert_result`, `update_defect_summary`,
  `update_defect_trends` and the three tables they maintain.

Modelling conventions:

* Python dicts become association lists (`lookupA` / `insertA`), keeping the
  source's first-match / replace-in-place / append-new-key behaviour.
* SQLite tables become Lean structures: the event log is a list, the two
  rollup tables are association lists keyed exactly as their primary keys
  (`defect_summary` by the date, `defect_trends` by the month-name string
  that `insert_result` passes as the period).
* Timestamps are represented structurally (year/month/day/…); the string
  fields the code derives with `strftime` become the corresponding
  projections (`monthName`, `weekTag`), including a faithful `%W` week
  number over the proleptic Gregorian calendar.
* sqlite errors are injected by a `WriteFault` oracle; a failing statement
  leaves its table unchanged and is caught (the code prints it), so the
  value returned to the caller is modelled as `Option String` and is
  always `none`, as in the source where every `sqlite3.Error` is swallowed.
* Line-crossing emissions (`detection_result.emit` inside `annotate_frame`)
  are recorded as `Firing` values carrying the object id as observable
  instrumentation for attribution, together with the emitted label.
-/

namespace QualiScan

/-! ## Association-list maps (embedding of Python dict / keyed SQL rows) -/

def lookupA {α β : Type} [DecidableEq α] : List (α × β) → α → Option β
  | [], _ => none
  | p :: rest, k => if p.1 = k then some p.2 else lookupA rest k

def insertA {α β : Type} [DecidableEq α] : List (α × β) → α → β → List (α × β)
  | [], k, v => [(k, v)]
  | p :: rest, k, v => if p.1 = k then (k, v) :: rest else p :: insertA rest k v

def containsA {α β : Type} [DecidableEq α] (m : List (α × β)) (k : α) : Bool :=
  (lookupA m k).isSome

/-! ## Detections and the inference contract (`results[0].boxes`) -/

/-- One detection: bounding box corners and the class index, as read by
`annotate_frame` via `map(int, box.xyxy[0])` and `int(box.cls[0])`. -/
structure Box where
  x1 : Int
  y1 : Int
  x2 : Int
  y2 : Int
  cls : Nat
  deriving DecidableEq

/-- `class_names = ["Damaged-Open", "Damaged-Deformed", "Intact"]`. -/
def classNames : List String := ["Damaged-Open", "Damaged-Deformed", "Intact"]

/-- `object_id = (x1 + x2) // 2` (Python floor division). -/
def objectId (b : Box) : Int := Int.fdiv (b.x1 + b.x2) 2

/-- A `detection_result` emission from `annotate_frame`, with the emitting
object id kept as observable instrumentation for attribution. -/
structure Firing where
  oid : Int
  label : String
  deriving DecidableEq

/-- Accumulator for the `for box in boxes` loop of `annotate_frame`:
`self.tracked_objects`, `current_frame_objects`, and the emissions so far. -/
structure FrameAcc where
  tracked : List (Int × Int)
  current : List (Int × Int)
  firings : List Firing
  deriving DecidableEq

/-- One iteration of the `annotate_frame` box loop: boxes with
`cls >= len(class_names)` are skipped; otherwise the box is entered into
`current_frame_objects`; a previously tracked identity fires exactly when
`tracked_objects[object_id] < line_y_position <= y2`, which also overwrites
the stored position; an unseen identity is stored without firing. -/
def processBox (lineY : Int) (acc : FrameAcc) (b : Box) : FrameAcc :=
  if b.cls < classNames.length then
    let oid := objectId b
    let cur := insertA acc.current oid b.y2
    match lookupA acc.tracked oid with
    | some prev =>
        if prev < lineY ∧ lineY ≤ b.y2 then
          ⟨insertA acc.tracked oid b.y2, cur,
            acc.firings ++ [⟨oid, classNames.getD b.cls ""⟩]⟩
        else
          ⟨acc.tracked, cur, acc.firings⟩
    | none => ⟨insertA acc.tracked oid b.y2, cur, acc.firings⟩
  else acc

/-- `annotate_frame`: run the box loop, then evict every tracked identity
absent from `current_frame_objects`. Returns the new `tracked_objects`
map and the crossing emissions of this frame. -/
def annotate_frame (lineY : Int) (tracked : List (Int × Int)) (boxes : List Box) :
    List (Int × Int) × List Firing :=
  let acc := boxes.foldl (processBox lineY) ⟨tracked, [], []⟩
  (acc.tracked.filter fun p => containsA acc.current p.1, acc.firings)

/-- Successive frames fed through `annotate_frame`, threading
`self.tracked_objects` and concatenating the crossing emissions. -/
def runFrames (lineY : Int) (t : List (Int × Int)) :
    List (List Box) → List (Int × Int) × List Firing
  | [] => (t, [])
  | f :: fs =>
      let r := annotate_frame lineY t f
      let rest := runFrames lineY r.1 fs
      (rest.1, r.2 ++ rest.2)

/-- Number of crossing emissions attributed to identity `i`. -/
def countFir (i : Int) (l : List Firing) : Nat :=
  (l.filter fun e => decide (e.oid = i)).length

/-- The box predicate for identity `i`: counted class and matching id. -/
def isBoxOf (i : Int) (b : Box) : Bool :=
  decide (b.cls < classNames.length) && decide (objectId b = i)

/-- Identity `i` is present in (not evicted after) this frame. -/
def presentIn (i : Int) (boxes : List Box) : Bool := boxes.any (isBoxOf i)

/-- The stored position of identity `i` is at or below the line. -/
def stAbove (lineY i : Int) (t : List (Int × Int)) : Prop :=
  ∃ v, lookupA t i = some v ∧ lineY ≤ v

/-! ## `count_detections` and `handle_detections` (watchdog + emissions) -/

/-- The `counts` dict of `count_detections`. -/
structure Counts where
  intact : Nat
  damagedDeformed : Nat
  damagedOpen : Nat
  deriving DecidableEq

/-- One iteration of the `count_detections` loop: classify a box by its
class index (`2 → Intact`, `1 → Damaged-Deformed`, `0 → Damaged-Open`,
others ignored). -/
def countStep (c : Counts) (b : Box) : Counts :=
  if b.cls = 2 then { c with intact := c.intact + 1 }
  else if b.cls = 1 then { c with damagedDeformed := c.damagedDeformed + 1 }
  else if b.cls = 0 then { c with damagedOpen := c.damagedOpen + 1 }
  else c

/-- `count_detections`: per-class totals of one frame's boxes. -/
def count_detections (boxes : List Box) : Counts := boxes.foldl countStep ⟨0, 0, 0⟩

/-- `self.consecutive_damaged_count` and `self.paused`. -/
structure WatchState where
  count : Nat
  paused : Bool
  deriving DecidableEq

/-- Observable outcome of one `handle_detections` call. -/
structure WatchOut where
  state : WatchState
  warnings : List String
  pauseSignals : List String
  results : List String
  deriving DecidableEq

def warnText : String :=
  "Warning: 10 consecutive defective items detected. Pausing detection."

/-- `handle_detections`: the watchdog adds the frame's defective count; at
`>= 10` it emits one warning, one pause trigger, sets `paused`, and resets
the count; a frame with no defective detections resets the count. It then
emits one `detection_result` per counted detection, per class in dict
insertion order (Intact, Damaged-Deformed, Damaged-Open). -/
def handle_detections (c : Counts) (st : WatchState) : WatchOut :=
  let defective := c.damagedDeformed + c.damagedOpen
  let results :=
    List.replicate c.intact "Intact" ++
      List.replicate c.damagedDeformed "Damaged-Deformed" ++
        List.replicate c.damagedOpen "Damaged-Open"
  if 0 < defective then
    if 10 ≤ st.count + defective then
      ⟨⟨0, true⟩, [warnText], ["paused"], results⟩
    else
      ⟨⟨st.count + defective, st.paused⟩, [], [], results⟩
  else
    ⟨⟨0, st.paused⟩, [], [], results⟩

/-- Iterated watchdog over per-frame count batches, accumulating the number
of warnings emitted. -/
def runWatch (st : WatchState) (batches : List Counts) : WatchState × Nat :=
  batches.foldl
    (fun acc c =>
      let o := handle_detections c acc.1
      (o.state, acc.2 + o.warnings.length))
    (st, 0)

/-- Pipeline state threaded through one processed frame: the tracker map of
`annotate_frame` plus the watchdog state of `handle_detections`. -/
structure PipeState where
  tracked : List (Int × Int)
  watch : WatchState
  deriving DecidableEq

/-- Everything one processed frame emits. -/
structure FrameOut where
  state : PipeState
  crossings : List Firing
  warnings : List String
  pauseSignals : List String
  results : List String
  deriving DecidableEq

/-- One frame of the `process_video` / `process_image` body:
`annotate_frame` on the boxes, then `count_detections` and
`handle_detections` on the same boxes. -/
def pipelineFrame (lineY : Int) (ps : PipeState) (boxes : List Box) : FrameOut :=
  let a := annotate_frame lineY ps.tracked boxes
  let h := handle_detections (count_detections boxes) ps.watch
  ⟨⟨a.1, h.state⟩, a.2, h.warnings, h.pauseSignals, h.results⟩

/-- The `detection_result` emissions of one processed frame, in emission
order: crossing emissions from `annotate_frame`, then the per-detection
emissions from `handle_detections`. -/
def emissionsOf (fo : FrameOut) : List String :=
  fo.crossings.map Firing.label ++ fo.results

/-! ## The aggregation store (`database.py`) -/

/-- A parsed timestamp, as produced by
`datetime.strptime(timestamp, "%Y-%m-%d %H:%M:%S")`. -/
structure Timestamp where
  year : Nat
  month : Nat
  day : Nat
  hour : Nat
  minute : Nat
  second : Nat
  deriving DecidableEq

/-- `strftime("%B")`: the English month name (empty for out-of-range input,
which `strptime` never produces). -/
def monthName : Nat → String
  | 1 => "January"
  | 2 => "February"
  | 3 => "March"
  | 4 => "April"
  | 5 => "May"
  | 6 => "June"
  | 7 => "July"
  | 8 => "August"
  | 9 => "September"
  | 10 => "October"
  | 11 => "November"
  | 12 => "December"
  | _ => ""

def isLeap (y : Nat) : Bool := y % 4 = 0 && (y % 100 != 0 || y % 400 = 0)

def monthLength (y m : Nat) : Nat :=
  if m = 2 then (if isLeap y then 29 else 28)
  else if m = 4 ∨ m = 6 ∨ m = 9 ∨ m = 11 then 30
  else 31

/-- One-based day of the year. -/
def dayOfYear (t : Timestamp) : Nat :=
  ((List.range (t.month - 1)).map fun k => monthLength t.year (k + 1)).sum + t.day

/-- Days in the proleptic Gregorian calendar before January 1 of `y`. -/
def daysBeforeYear (y : Nat) : Nat :=
  365 * (y - 1) + (y - 1) / 4 - (y - 1) / 100 + (y - 1) / 400

/-- The date's ordinal (0001-01-01 has ordinal 1, a Monday). -/
def ordinalOf (t : Timestamp) : Nat := daysBeforeYear t.year + dayOfYear t

/-- Weekday with Monday = 0, as in Python's `date.weekday()`. -/
def weekdayMon0 (t : Timestamp) : Nat := (ordinalOf t + 6) % 7

/-- `strftime("%W")`: Monday-first week of the year; days before the first
Monday are week 0. -/
def weekNumber (t : Timestamp) : Nat := (dayOfYear t + 6 - weekdayMon0 t) / 7

/-- The `strftime("%Y-%W")` value, represented structurally. -/
def weekTag (t : Timestamp) : Nat × Nat := (t.year, weekNumber t)

/-- The `DATE(timestamp)` / `strftime("%Y-%m-%d")` value, structurally. -/
abbrev DateKey := Nat × Nat × Nat

def dateOf (t : Timestamp) : DateKey := (t.year, t.month, t.day)

/-- One row of `detection_results`. -/
structure EventRow where
  ts : Timestamp
  status : String
  details : String
  deriving DecidableEq

/-- One row of `defect_summary` or `defect_trends` (identical shape; the
`total` field models `total_count` in the former and `total_defects` in the
latter, and the key column lives in the association list). -/
structure RollupRow where
  year : Nat
  month : String
  week : Nat × Nat
  total : Nat
  intact_count : Nat
  damaged_deformed_count : Nat
  damaged_open_count : Nat
  deriving DecidableEq

/-- The upsert of `update_defect_summary` / `update_defect_trends`:
`INSERT ... ON CONFLICT(key) DO UPDATE` replaces only the four count
columns of an existing row (year/month/week keep their first values). -/
def upsertRow {α : Type} [DecidableEq α] :
    List (α × RollupRow) → α → RollupRow → List (α × RollupRow)
  | [], k, row => [(k, row)]
  | p :: rest, k, row =>
      if p.1 = k then
        (p.1,
          { p.2 with
            total := row.total
            intact_count := row.intact_count
            damaged_deformed_count := row.damaged_deformed_count
            damaged_open_count := row.damaged_open_count }) :: rest
      else p :: upsertRow rest k row

/-- The three tables created by `create_tables`. -/
structure DB where
  detection_results : List EventRow
  defect_summary : List (DateKey × RollupRow)
  defect_trends : List (String × RollupRow)
  deriving DecidableEq

def emptyDB : DB := ⟨[], [], []⟩

/-- `SUM(CASE WHEN status = s THEN 1 ELSE 0 END)` over a set of rows. -/
def statusCount (evs : List EventRow) (s : String) : Nat :=
  (evs.filter fun e => decide (e.status = s)).length

/-- `WHERE DATE(timestamp) = date`. -/
def eventsOnDate (log : List EventRow) (d : DateKey) : List EventRow :=
  log.filter fun e => decide (dateOf e.ts = d)

/-- `WHERE strftime('%Y-%m', timestamp) = strftime('%Y-%m', date)`. -/
def eventsInMonth (log : List EventRow) (y m : Nat) : List EventRow :=
  log.filter fun e => decide (e.ts.year = y ∧ e.ts.month = m)

/-- `update_defect_summary`: recompute the four counts for the given date
from the full log and upsert them under the date key. With no matching
rows the grouped SELECT produces nothing and the table is unchanged. -/
def update_defect_summary (db : DB) (d : DateKey) (year : Nat) (month : String)
    (week : Nat × Nat) : DB :=
  let evs := eventsOnDate db.detection_results d
  if evs.isEmpty then db
  else
    { db with
      defect_summary :=
        upsertRow db.defect_summary d
          ⟨year, month, week, evs.length, statusCount evs "Intact",
            statusCount evs "Damaged-Deformed", statusCount evs "Damaged-Open"⟩ }

/-- `update_defect_trends`: recompute the counts over the calendar month of
the given date from the full log and upsert them — keyed by the month-name
string that `insert_result` passes as the period. With no matching rows the
`SUM`s are NULL, the NOT NULL insert fails and is caught, leaving the table
unchanged. -/
def update_defect_trends (db : DB) (d : DateKey) (year : Nat) (month : String)
    (week : Nat × Nat) : DB :=
  let evs := eventsInMonth db.detection_results d.1 d.2.1
  if evs.isEmpty then db
  else
    { db with
      defect_trends :=
        upsertRow db.defect_trends month
          ⟨year, month, week, evs.length, statusCount evs "Intact",
            statusCount evs "Damaged-Deformed", statusCount evs "Damaged-Open"⟩ }

/-- Failure injection for the three SQL statements of one `record`. -/
structure WriteFault where
  failLog : Bool
  failSummary : Bool
  failTrends : Bool
  deriving DecidableEq

/-- `insert_result`: append to the log and, if that commit succeeded,
recompute both rollups. Every `sqlite3.Error` is caught and printed, so the
caller never observes an error: the returned report is always `none`. A
failing statement leaves its table unchanged; a log-append failure also
skips both rollup updates (they sit inside the same `try`). -/
def insert_result (fault : WriteFault) (db : DB) (ts : Timestamp)
    (status details : String) : DB × Option String :=
  let year := ts.year
  let month := monthName ts.month
  let week := weekTag ts
  if fault.failLog then (db, none)
  else
    let db1 :=
      { db with detection_results := db.detection_results ++ [⟨ts, status, details⟩] }
    let db2 :=
      if fault.failSummary then db1
      else update_defect_summary db1 (dateOf ts) year month week
    let db3 :=
      if fault.failTrends then db2
      else update_defect_trends db2 (dateOf ts) year month week
    (db3, none)

def noFault : WriteFault := ⟨false, false, false⟩

/-- One fault-free `record` call. -/
def insertOk (db : DB) (e : EventRow) : DB :=
  (insert_result noFault db e.ts e.status e.details).1

/-- A whole sequence of `record` calls against a fresh database. -/
def runInserts (events : List EventRow) : DB := events.foldl insertOk emptyDB

/-- Sum of `DailySummary.total` over the dates of calendar month `(y, m)`. -/
def sumDailyTotals (db : DB) (y m : Nat) : Nat :=
  ((db.defect_summary.filter fun p => decide (p.1.1 = y ∧ p.1.2.1 = m)).map
    fun p => p.2.total).sum

/-- A timestamp `strptime` can actually produce (claims only need the month
range). -/
def validTS (t : Timestamp) : Prop := 1 ≤ t.month ∧ t.month ≤ 12

instance (t : Timestamp) : Decidable (validTS t) := by
  unfold validTS; infer_instance

/-! ## Association-list lemmas -/

theorem lookupA_insertA_self {α β : Type} [DecidableEq α] (m : List (α × β)) (k : α)
    (v : β) : lookupA (insertA m k v) k = some v := by
  induction m with
  | nil => simp [insertA, lookupA]
  | cons p rest ih =>
    by_cases h : p.1 = k
    · simp [insertA, h, lookupA]
    · simp [insertA, h, lookupA, ih]

theorem lookupA_insertA_ne {α β : Type} [DecidableEq α] (m : List (α × β)) (k k2 : α)
    (v : β) (h : k2 ≠ k) : lookupA (insertA m k v) k2 = lookupA m k2 := by
  have hne : k ≠ k2 := fun he => h he.symm
  induction m with
  | nil => simp only [insertA, lookupA, if_neg hne]
  | cons p rest ih =>
    by_cases hp : p.1 = k
    · simp only [insertA, if_pos hp, lookupA, if_neg hne]
      rw [if_neg (by rw [hp]; exact hne)]
    · simp only [insertA, if_neg hp, lookupA]
      by_cases hp2 : p.1 = k2
      · rw [if_pos hp2, if_pos hp2]
      · rw [if_neg hp2, if_neg hp2, ih]

theorem containsA_insertA_self {α β : Type} [DecidableEq α] (m : List (α × β)) (k : α)
    (v : β) : containsA (insertA m k v) k = true := by
  simp [containsA, lookupA_insertA_self]

theorem containsA_insertA_mono {α β : Type} [DecidableEq α] (m : List (α × β))
    (k k2 : α) (v : β) (h : containsA m k2 = true) :
    containsA (insertA m k v) k2 = true := by
  by_cases hk : k2 = k
  · subst hk; exact containsA_insertA_self m k2 v
  · simpa [containsA, lookupA_insertA_ne m k k2 v hk] using h

theorem lookupA_filter {α β : Type} [DecidableEq α] (f : α → Bool) (m : List (α × β))
    (k : α) :
    lookupA (m.filter fun p => f p.1) k = if f k then lookupA m k else none := by
  induction m with
  | nil => simp [lookupA]
  | cons p rest ih =>
    by_cases hf : f p.1
    · by_cases hk : p.1 = k
      · subst hk; simp [List.filter, hf, lookupA, ih]
      · simp [List.filter, hf, lookupA, hk, ih]
    · by_cases hk : p.1 = k
      · subst hk
        simp only [List.filter, hf]
        simp [ih, hf, lookupA]
      · simp [List.filter, hf, lookupA, hk, ih]

theorem lookupA_mem {α β : Type} [DecidableEq α] (m : List (α × β)) (k : α) (r : β)
    (h : lookupA m k = some r) : (k, r) ∈ m := by
  induction m with
  | nil => simp [lookupA] at h
  | cons p rest ih =>
    by_cases hk : p.1 = k
    · rw [lookupA, if_pos hk] at h
      have h2 : p.2 = r := Option.some.inj h
      have hp : (k, r) = p := by
        rw [Prod.ext_iff]
        exact ⟨hk.symm, h2.symm⟩
      rw [hp]
      exact List.mem_cons_self p rest
    · rw [lookupA, if_neg hk] at h
      exact List.mem_cons_of_mem _ (ih h)

theorem mem_lookupA_nodup {α β : Type} [DecidableEq α] (m : List (α × β)) (k : α)
    (r : β) (hnd : (m.map Prod.fst).Nodup) (h : (k, r) ∈ m) :
    lookupA m k = some r := by
  induction m with
  | nil => simp at h
  | cons p rest ih =>
    rw [List.map_cons, List.nodup_cons] at hnd
    rcases List.mem_cons.mp h with h1 | h2
    · rw [← h1]
      simp [lookupA]
    · have hk : p.1 ≠ k := by
        intro he
        have hm : k ∈ rest.map Prod.fst := List.mem_map.mpr ⟨(k, r), h2, rfl⟩
        exact hnd.1 (he ▸ hm)
      rw [lookupA, if_neg hk]
      exact ih hnd.2 h2

/-! ## Counting crossing emissions -/

theorem countFir_append (i : Int) (l1 l2 : List Firing) :
    countFir i (l1 ++ l2) = countFir i l1 + countFir i l2 := by
  simp [countFir, List.filter_append]

theorem countFir_single (i : Int) (x : Firing) :
    countFir i [x] = if x.oid = i then 1 else 0 := by
  by_cases h : x.oid = i <;> simp [countFir, h]

/-! ## Branch characterizations of `processBox` -/

theorem processBox_skip_cls {lineY : Int} {acc : FrameAcc} {b : Box}
    (hcls : ¬ b.cls < classNames.length) : processBox lineY acc b = acc := by
  unfold processBox
  rw [if_neg hcls]

theorem processBox_new {lineY : Int} {acc : FrameAcc} {b : Box}
    (hcls : b.cls < classNames.length)
    (hl : lookupA acc.tracked (objectId b) = none) :
    processBox lineY acc b =
      ⟨insertA acc.tracked (objectId b) b.y2, insertA acc.current (objectId b) b.y2,
        acc.firings⟩ := by
  unfold processBox
  simp only [if_pos hcls, hl]

theorem processBox_fire {lineY : Int} {acc : FrameAcc} {b : Box} {prev : Int}
    (hcls : b.cls < classNames.length)
    (hl : lookupA acc.tracked (objectId b) = some prev)
    (hcross : prev < lineY ∧ lineY ≤ b.y2) :
    processBox lineY acc b =
      ⟨insertA acc.tracked (objectId b) b.y2, insertA acc.current (objectId b) b.y2,
        acc.firings ++ [⟨objectId b, classNames.getD b.cls ""⟩]⟩ := by
  unfold processBox
  simp only [if_pos hcls, hl, if_pos hcross]

theorem processBox_nocross {lineY : Int} {acc : FrameAcc} {b : Box} {prev : Int}
    (hcls : b.cls < classNames.length)
    (hl : lookupA acc.tracked (objectId b) = some prev)
    (hcross : ¬ (prev < lineY ∧ lineY ≤ b.y2)) :
    processBox lineY acc b =
      ⟨acc.tracked, insertA acc.current (objectId b) b.y2, acc.firings⟩ := by
  unfold processBox
  simp only [if_pos hcls, hl, if_neg hcross]

/-! ## Per-box invariants of the tracker -/

theorem processBox_stAbove {lineY i : Int} {acc : FrameAcc} {b : Box}
    (h : stAbove lineY i acc.tracked) :
    stAbove lineY i (processBox lineY acc b).tracked ∧
      countFir i (processBox lineY acc b).firings = countFir i acc.firings := by
  obtain ⟨v, hv, hle⟩ := h
  by_cases hcls : b.cls < classNames.length
  · cases hl : lookupA acc.tracked (objectId b) with
    | none =>
      rw [processBox_new hcls hl]
      have hne : i ≠ objectId b := by
        intro he
        rw [← he, hv] at hl
        cases hl
      exact ⟨⟨v, by rw [lookupA_insertA_ne _ _ _ _ hne]; exact hv, hle⟩, rfl⟩
    | some prev =>
      by_cases hcross : prev < lineY ∧ lineY ≤ b.y2
      · rw [processBox_fire hcls hl hcross]
        have hne : i ≠ objectId b := by
          intro he
          rw [← he, hv] at hl
          have : v = prev := Option.some.inj hl
          omega
        refine ⟨⟨v, by rw [lookupA_insertA_ne _ _ _ _ hne]; exact hv, hle⟩, ?_⟩
        rw [countFir_append, countFir_single]
        have hoid : ¬ objectId b = i := fun he => hne he.symm
        simp [hoid]
      · rw [processBox_nocross hcls hl hcross]
        exact ⟨⟨v, hv, hle⟩, rfl⟩
  · rw [processBox_skip_cls hcls]
    exact ⟨⟨v, hv, hle⟩, rfl⟩

theorem processBox_count {lineY i : Int} (acc : FrameAcc) (b : Box) :
    countFir i (processBox lineY acc b).firings = countFir i acc.firings ∨
      (countFir i (processBox lineY acc b).firings = countFir i acc.firings + 1 ∧
        stAbove lineY i (processBox lineY acc b).tracked ∧
        containsA (processBox lineY acc b).current i = true) := by
  by_cases hcls : b.cls < classNames.length
  · cases hl : lookupA acc.tracked (objectId b) with
    | none => rw [processBox_new hcls hl]; left; rfl
    | some prev =>
      by_cases hcross : prev < lineY ∧ lineY ≤ b.y2
      · rw [processBox_fire hcls hl hcross]
        by_cases hoid : objectId b = i
        · right
          refine ⟨?_, ⟨b.y2, ?_, hcross.2⟩, ?_⟩
          · rw [countFir_append, countFir_single]
            simp [hoid]
          · rw [hoid]
            exact lookupA_insertA_self _ _ _
          · rw [hoid]
            exact containsA_insertA_self _ _ _
        · left
          rw [countFir_append, countFir_single]
          simp [hoid]
      · rw [processBox_nocross hcls hl hcross]; left; rfl
  · rw [processBox_skip_cls hcls]; left; rfl

theorem processBox_untouched {lineY i : Int} {acc : FrameAcc} {b : Box}
    (hb : ¬ (b.cls < classNames.length ∧ objectId b = i)) :
    lookupA (processBox lineY acc b).tracked i = lookupA acc.tracked i ∧
      countFir i (processBox lineY acc b).firings = countFir i acc.firings := by
  by_cases hcls : b.cls < classNames.length
  · have hoid : objectId b ≠ i := fun he => hb ⟨hcls, he⟩
    have hne : i ≠ objectId b := fun he => hoid he.symm
    cases hl : lookupA acc.tracked (objectId b) with
    | none =>
      rw [processBox_new hcls hl]
      exact ⟨lookupA_insertA_ne _ _ _ _ hne, rfl⟩
    | some prev =>
      by_cases hcross : prev < lineY ∧ lineY ≤ b.y2
      · rw [processBox_fire hcls hl hcross]
        refine ⟨lookupA_insertA_ne _ _ _ _ hne, ?_⟩
        rw [countFir_append, countFir_single]
        simp [hoid]
      · rw [processBox_nocross hcls hl hcross]
        exact ⟨rfl, rfl⟩
  · rw [processBox_skip_cls hcls]
    exact ⟨rfl, rfl⟩

theorem processBox_current_mono {lineY i : Int} {acc : FrameAcc} (b : Box)
    (h : containsA acc.current i = true) :
    containsA (processBox lineY acc b).current i = true := by
  by_cases hcls : b.cls < classNames.length
  · cases hl : lookupA acc.tracked (objectId b) with
    | none =>
      rw [processBox_new hcls hl]
      exact containsA_insertA_mono _ _ _ _ h
    | some prev =>
      by_cases hcross : prev < lineY ∧ lineY ≤ b.y2
      · rw [processBox_fire hcls hl hcross]
        exact containsA_insertA_mono _ _ _ _ h
      · rw [processBox_nocross hcls hl hcross]
        exact containsA_insertA_mono _ _ _ _ h
  · rw [processBox_skip_cls hcls]
    exact h

theorem processBox_current_self {lineY i : Int} {acc : FrameAcc} {b : Box}
    (hcls : b.cls < classNames.length) (hoid : objectId b = i) :
    containsA (processBox lineY acc b).current i = true := by
  cases hl : lookupA acc.tracked (objectId b) with
  | none =>
    rw [processBox_new hcls hl, ← hoid]
    exact containsA_insertA_self _ _ _
  | some prev =>
    by_cases hcross : prev < lineY ∧ lineY ≤ b.y2
    · rw [processBox_fire hcls hl hcross, ← hoid]
      exact containsA_insertA_self _ _ _
    · rw [processBox_nocross hcls hl hcross, ← hoid]
      exact containsA_insertA_self _ _ _

theorem processBox_fire_count {lineY i : Int} {acc : FrameAcc} {b : Box} {prev : Int}
    (hcls : b.cls < classNames.length) (hoid : objectId b = i)
    (hl : lookupA acc.tracked i = some prev) (h1 : prev < lineY) (h2 : lineY ≤ b.y2) :
    countFir i (processBox lineY acc b).firings = countFir i acc.firings + 1 ∧
      stAbove lineY i (processBox lineY acc b).tracked := by
  have hl2 : lookupA acc.tracked (objectId b) = some prev := by rw [hoid]; exact hl
  rw [processBox_fire hcls hl2 ⟨h1, h2⟩]
  refine ⟨?_, ⟨b.y2, ?_, h2⟩⟩
  · rw [countFir_append, countFir_single]
    simp [hoid]
  · rw [hoid]
    exact lookupA_insertA_self _ _ _

theorem processBox_nofire {lineY i : Int} {acc : FrameAcc} {b : Box} {prev : Int}
    (hcls : b.cls < classNames.length) (hoid : objectId b = i)
    (hl : lookupA acc.tracked i = some prev)
    (hno : ¬ (prev < lineY ∧ lineY ≤ b.y2)) :
    (processBox lineY acc b).tracked = acc.tracked ∧
      countFir i (processBox lineY acc b).firings = countFir i acc.firings := by
  have hl2 : lookupA acc.tracked (objectId b) = some prev := by rw [hoid]; exact hl
  rw [processBox_nocross hcls hl2 hno]
  exact ⟨rfl, rfl⟩

theorem processBox_first {lineY i : Int} {acc : FrameAcc} {b : Box}
    (hcls : b.cls < classNames.length) (hoid : objectId b = i)
    (hl : lookupA acc.tracked i = none) :
    lookupA (processBox lineY acc b).tracked i = some b.y2 ∧
      countFir i (processBox lineY acc b).firings = countFir i acc.firings := by
  have hl2 : lookupA acc.tracked (objectId b) = none := by rw [hoid]; exact hl
  rw [processBox_new hcls hl2]
  refine ⟨?_, rfl⟩
  rw [hoid]
  exact lookupA_insertA_self _ _ _

theorem processBox_small {lineY i : Int} {acc : FrameAcc} {b : Box}
    (hsmall : objectId b = i → b.y2 < lineY) :
    countFir i (processBox lineY acc b).firings = countFir i acc.firings := by
  by_cases hcls : b.cls < classNames.length
  · cases hl : lookupA acc.tracked (objectId b) with
    | none => rw [processBox_new hcls hl]
    | some prev =>
      by_cases hcross : prev < lineY ∧ lineY ≤ b.y2
      · rw [processBox_fire hcls hl hcross]
        have hoid : objectId b ≠ i := by
          intro he
          have := hsmall he
          omega
        rw [countFir_append, countFir_single]
        simp [hoid]
      · rw [processBox_nocross hcls hl hcross]
  · rw [processBox_skip_cls hcls]

/-! ## The box loop of `annotate_frame` -/

theorem foldl_stAbove {lineY i : Int} (boxes : List Box) :
    ∀ acc : FrameAcc, stAbove lineY i acc.tracked →
      stAbove lineY i (boxes.foldl (processBox lineY) acc).tracked ∧
        countFir i (boxes.foldl (processBox lineY) acc).firings =
          countFir i acc.firings := by
  induction boxes with
  | nil => exact fun acc h => ⟨h, rfl⟩
  | cons b bs ih =>
    intro acc h
    rw [List.foldl_cons]
    have h1 := @processBox_stAbove lineY i acc b h
    have h2 := ih (processBox lineY acc b) h1.1
    exact ⟨h2.1, h2.2.trans h1.2⟩

theorem foldl_current_mono {lineY i : Int} (boxes : List Box) :
    ∀ acc : FrameAcc, containsA acc.current i = true →
      containsA (boxes.foldl (processBox lineY) acc).current i = true := by
  induction boxes with
  | nil => exact fun acc h => h
  | cons b bs ih =>
    intro acc h
    rw [List.foldl_cons]
    exact ih _ (processBox_current_mono b h)

theorem foldl_current_present {lineY i : Int} (boxes : List Box) :
    ∀ acc : FrameAcc, presentIn i boxes = true →
      containsA (boxes.foldl (processBox lineY) acc).current i = true := by
  induction boxes with
  | nil => intro acc h; simp [presentIn] at h
  | cons b bs ih =>
    intro acc h
    rw [List.foldl_cons]
    have hh : isBoxOf i b = true ∨ ∃ x ∈ bs, isBoxOf i x = true := by
      simpa [presentIn, List.any_cons] using h
    rcases hh with hb | hbs
    · have hio : b.cls < classNames.length ∧ objectId b = i := by
        simpa [isBoxOf] using hb
      exact foldl_current_mono bs _ (processBox_current_self hio.1 hio.2)
    · have hp : presentIn i bs = true := by
        simp only [presentIn, List.any_eq_true]
        exact hbs
      exact ih _ hp

theorem foldl_count {lineY i : Int} (boxes : List Box) :
    ∀ acc : FrameAcc,
      countFir i (boxes.foldl (processBox lineY) acc).firings =
          countFir i acc.firings ∨
        (countFir i (boxes.foldl (processBox lineY) acc).firings =
            countFir i acc.firings + 1 ∧
          stAbove lineY i (boxes.foldl (processBox lineY) acc).tracked ∧
          containsA (boxes.foldl (processBox lineY) acc).current i = true) := by
  induction boxes with
  | nil => exact fun acc => Or.inl rfl
  | cons b bs ih =>
    intro acc
    rw [List.foldl_cons]
    rcases @processBox_count lineY i acc b with h | ⟨hc, hst, hcur⟩
    · rcases ih (processBox lineY acc b) with h2 | ⟨h2, hst2, hcur2⟩
      · exact Or.inl (h2.trans h)
      · exact Or.inr ⟨by rw [h2, h], hst2, hcur2⟩
    · have h2 := foldl_stAbove bs (processBox lineY acc b) hst
      exact Or.inr ⟨by rw [h2.2, hc], h2.1, foldl_current_mono bs _ hcur⟩

theorem foldl_untouched {lineY i : Int} (boxes : List Box)
    (hb : ∀ b ∈ boxes, ¬ (b.cls < classNames.length ∧ objectId b = i)) :
    ∀ acc : FrameAcc,
      lookupA (boxes.foldl (processBox lineY) acc).tracked i =
          lookupA acc.tracked i ∧
        countFir i (boxes.foldl (processBox lineY) acc).firings =
          countFir i acc.firings := by
  induction boxes with
  | nil => exact fun acc => ⟨rfl, rfl⟩
  | cons b bs ih =>
    intro acc
    rw [List.foldl_cons]
    have h1 := @processBox_untouched lineY i acc b
      (hb b (List.mem_cons_self b bs))
    have h2 := ih (fun x hx => hb x (List.mem_cons_of_mem b hx)) (processBox lineY acc b)
    exact ⟨h2.1.trans h1.1, h2.2.trans h1.2⟩

theorem foldl_small {lineY i : Int} (boxes : List Box)
    (hsmall : ∀ b ∈ boxes, objectId b = i → b.y2 < lineY) :
    ∀ acc : FrameAcc,
      countFir i (boxes.foldl (processBox lineY) acc).firings =
        countFir i acc.firings := by
  induction boxes with
  | nil => exact fun acc => rfl
  | cons b bs ih =>
    intro acc
    rw [List.foldl_cons]
    have h1 := @processBox_small lineY i acc b
      (hsmall b (List.mem_cons_self b bs))
    have h2 := ih (fun x hx => hsmall x (List.mem_cons_of_mem b hx))
      (processBox lineY acc b)
    exact h2.trans h1

theorem foldl_first_sight {lineY i : Int} (boxes : List Box) :
    ∀ acc : FrameAcc, ∀ b0 : Box, lookupA acc.tracked i = none →
      boxes.find? (isBoxOf i) = some b0 → lineY ≤ b0.y2 →
      stAbove lineY i (boxes.foldl (processBox lineY) acc).tracked ∧
        countFir i (boxes.foldl (processBox lineY) acc).firings =
          countFir i acc.firings := by
  induction boxes with
  | nil => intro acc b0 _ hfind; simp [List.find?] at hfind
  | cons b bs ih =>
    intro acc b0 hnone hfind hy
    rw [List.foldl_cons]
    by_cases hmatch : isBoxOf i b = true
    · have hb0 : b = b0 := by
        rw [List.find?_cons_of_pos _ hmatch] at hfind
        exact Option.some.inj hfind
      have hio : b.cls < classNames.length ∧ objectId b = i := by
        simpa [isBoxOf] using hmatch
      have h1 := @processBox_first lineY i acc b hio.1 hio.2 hnone
      have hst : stAbove lineY i (processBox lineY acc b).tracked :=
        ⟨b.y2, h1.1, hb0 ▸ hy⟩
      have h2 := foldl_stAbove bs (processBox lineY acc b) hst
      exact ⟨h2.1, h2.2.trans h1.2⟩
    · rw [List.find?_cons_of_neg _ hmatch] at hfind
      have hnb : ¬ (b.cls < classNames.length ∧ objectId b = i) := by
        intro ⟨h1, h2⟩
        exact hmatch (by simp [isBoxOf, h1, h2])
      have h1 := @processBox_untouched lineY i acc b hnb
      have h2 := ih (processBox lineY acc b) b0 (h1.1.trans hnone) hfind hy
      exact ⟨h2.1, h2.2.trans h1.2⟩

theorem foldl_cross {lineY i : Int} (boxes : List Box) :
    ∀ acc : FrameAcc, ∀ b0 : Box, ∀ prev : Int,
      lookupA acc.tracked i = some prev → prev < lineY →
      boxes.find? (isBoxOf i) = some b0 → lineY ≤ b0.y2 →
      stAbove lineY i (boxes.foldl (processBox lineY) acc).tracked ∧
        countFir i (boxes.foldl (processBox lineY) acc).firings =
          countFir i acc.firings + 1 := by
  induction boxes with
  | nil => intro acc b0 prev _ _ hfind; simp [List.find?] at hfind
  | cons b bs ih =>
    intro acc b0 prev hsome hlt hfind hy
    rw [List.foldl_cons]
    by_cases hmatch : isBoxOf i b = true
    · have hb0 : b = b0 := by
        rw [List.find?_cons_of_pos _ hmatch] at hfind
        exact Option.some.inj hfind
      have hio : b.cls < classNames.length ∧ objectId b = i := by
        simpa [isBoxOf] using hmatch
      have h1 := @processBox_fire_count lineY i acc b prev hio.1 hio.2 hsome hlt (hb0 ▸ hy)
      have h2 := foldl_stAbove bs (processBox lineY acc b) h1.2
      exact ⟨h2.1, by rw [h2.2, h1.1]⟩
    · rw [List.find?_cons_of_neg _ hmatch] at hfind
      have hnb : ¬ (b.cls < classNames.length ∧ objectId b = i) := by
        intro ⟨h1, h2⟩
        exact hmatch (by simp [isBoxOf, h1, h2])
      have h1 := @processBox_untouched lineY i acc b hnb
      have h2 := ih (processBox lineY acc b) b0 prev (h1.1.trans hsome) hlt hfind hy
      exact ⟨h2.1, by rw [h2.2, h1.2]⟩

/-! ## Whole-frame lemmas for `annotate_frame` -/

theorem annotate_frame_fst (lineY : Int) (t : List (Int × Int)) (boxes : List Box) :
    (annotate_frame lineY t boxes).1 =
      (boxes.foldl (processBox lineY) ⟨t, [], []⟩).tracked.filter
        (fun p => containsA (boxes.foldl (processBox lineY) ⟨t, [], []⟩).current p.1) :=
  rfl

theorem annotate_frame_snd (lineY : Int) (t : List (Int × Int)) (boxes : List Box) :
    (annotate_frame lineY t boxes).2 =
      (boxes.foldl (processBox lineY) ⟨t, [], []⟩).firings :=
  rfl

theorem stAbove_filter {lineY i : Int} {t : List (Int × Int)} {cur : List (Int × Int)}
    (hst : stAbove lineY i t) (hc : containsA cur i = true) :
    stAbove lineY i (t.filter fun p => containsA cur p.1) := by
  obtain ⟨v, hv, hle⟩ := hst
  refine ⟨v, ?_, hle⟩
  rw [lookupA_filter, if_pos hc]
  exact hv

theorem annotate_stAbove {lineY i : Int} {t : List (Int × Int)} {boxes : List Box}
    (hst : stAbove lineY i t) (hp : presentIn i boxes = true) :
    stAbove lineY i (annotate_frame lineY t boxes).1 ∧
      countFir i (annotate_frame lineY t boxes).2 = 0 := by
  have h1 := @foldl_stAbove lineY i boxes ⟨t, [], []⟩ hst
  have h2 := @foldl_current_present lineY i boxes ⟨t, [], []⟩ hp
  constructor
  · rw [annotate_frame_fst]
    exact stAbove_filter h1.1 h2
  · rw [annotate_frame_snd, h1.2]
    rfl

theorem annotate_count {lineY i : Int} (t : List (Int × Int)) (boxes : List Box) :
    countFir i (annotate_frame lineY t boxes).2 = 0 ∨
      (countFir i (annotate_frame lineY t boxes).2 = 1 ∧
        stAbove lineY i (annotate_frame lineY t boxes).1) := by
  rcases @foldl_count lineY i boxes ⟨t, [], []⟩ with h | ⟨hc, hst, hcur⟩
  · left
    rw [annotate_frame_snd, h]
    rfl
  · right
    constructor
    · rw [annotate_frame_snd, hc]
      rfl
    · rw [annotate_frame_fst]
      exact stAbove_filter hst hcur

theorem annotate_small {lineY i : Int} {t : List (Int × Int)} {boxes : List Box}
    (hsmall : ∀ b ∈ boxes, objectId b = i → b.y2 < lineY) :
    countFir i (annotate_frame lineY t boxes).2 = 0 := by
  rw [annotate_frame_snd, foldl_small boxes hsmall ⟨t, [], []⟩]
  rfl

theorem presentIn_of_find {i : Int} {boxes : List Box} {b0 : Box}
    (hfind : boxes.find? (isBoxOf i) = some b0) : presentIn i boxes = true := by
  rw [presentIn, List.any_eq_true]
  exact ⟨b0, List.mem_of_find?_eq_some hfind, List.find?_some hfind⟩

theorem annotate_first_sight {lineY i : Int} {t : List (Int × Int)} {boxes : List Box}
    {b0 : Box} (hnone : lookupA t i = none)
    (hfind : boxes.find? (isBoxOf i) = some b0) (hy : lineY ≤ b0.y2) :
    stAbove lineY i (annotate_frame lineY t boxes).1 ∧
      countFir i (annotate_frame lineY t boxes).2 = 0 := by
  have h1 := @foldl_first_sight lineY i boxes ⟨t, [], []⟩ b0 hnone hfind hy
  have h2 := @foldl_current_present lineY i boxes ⟨t, [], []⟩
    (presentIn_of_find hfind)
  constructor
  · rw [annotate_frame_fst]
    exact stAbove_filter h1.1 h2
  · rw [annotate_frame_snd, h1.2]
    rfl

theorem annotate_cross {lineY i : Int} {t : List (Int × Int)} {boxes : List Box}
    {b0 : Box} {prev : Int} (hsome : lookupA t i = some prev) (hlt : prev < lineY)
    (hfind : boxes.find? (isBoxOf i) = some b0) (hy : lineY ≤ b0.y2) :
    stAbove lineY i (annotate_frame lineY t boxes).1 ∧
      countFir i (annotate_frame lineY t boxes).2 = 1 := by
  have h1 := @foldl_cross lineY i boxes ⟨t, [], []⟩ b0 prev hsome hlt
    hfind hy
  have h2 := @foldl_current_present lineY i boxes ⟨t, [], []⟩
    (presentIn_of_find hfind)
  constructor
  · rw [annotate_frame_fst]
    exact stAbove_filter h1.1 h2
  · rw [annotate_frame_snd, h1.2]
    rfl

/-! ## Multi-frame runs -/

theorem runFrames_cons (lineY : Int) (t : List (Int × Int)) (f : List Box)
    (fs : List (List Box)) :
    runFrames lineY t (f :: fs) =
      ((runFrames lineY (annotate_frame lineY t f).1 fs).1,
        (annotate_frame lineY t f).2 ++
          (runFrames lineY (annotate_frame lineY t f).1 fs).2) :=
  rfl

theorem run_stAbove {lineY i : Int} (frames : List (List Box)) :
    ∀ t : List (Int × Int), (∀ f ∈ frames, presentIn i f = true) →
      stAbove lineY i t →
      stAbove lineY i (runFrames lineY t frames).1 ∧
        countFir i (runFrames lineY t frames).2 = 0 := by
  induction frames with
  | nil => exact fun t _ h => ⟨h, rfl⟩
  | cons f fs ih =>
    intro t hp hst
    rw [runFrames_cons]
    have h1 := annotate_stAbove hst (hp f (List.mem_cons_self f fs))
    have h2 := ih (annotate_frame lineY t f).1
      (fun x hx => hp x (List.mem_cons_of_mem f hx)) h1.1
    refine ⟨h2.1, ?_⟩
    rw [countFir_append, h1.2, h2.2]

theorem run_le_one {lineY i : Int} (frames : List (List Box)) :
    ∀ t : List (Int × Int), (∀ f ∈ frames, presentIn i f = true) →
      countFir i (runFrames lineY t frames).2 ≤ 1 := by
  induction frames with
  | nil => intro t _; simp [runFrames, countFir]
  | cons f fs ih =>
    intro t hp
    rw [runFrames_cons]
    rw [countFir_append]
    rcases @annotate_count lineY i t f with h | ⟨hc, hst⟩
    · rw [h]
      simpa using ih (annotate_frame lineY t f).1
        (fun x hx => hp x (List.mem_cons_of_mem f hx))
    · rw [hc]
      have h2 := run_stAbove fs (annotate_frame lineY t f).1
        (fun x hx => hp x (List.mem_cons_of_mem f hx)) hst
      rw [h2.2]

theorem run_small {lineY i : Int} (frames : List (List Box)) :
    ∀ t : List (Int × Int),
      (∀ f ∈ frames, ∀ b ∈ f, objectId b = i → b.y2 < lineY) →
      countFir i (runFrames lineY t frames).2 = 0 := by
  induction frames with
  | nil => intro t _; simp [runFrames, countFir]
  | cons f fs ih =>
    intro t hs
    rw [runFrames_cons, countFir_append,
      @annotate_small lineY i t f (hs f (List.mem_cons_self f fs)),
      ih (annotate_frame lineY t f).1 (fun x hx => hs x (List.mem_cons_of_mem f hx))]

/-! ## Counting detections per frame -/

theorem countStep_sum (acc : Counts) (b : Box) :
    (countStep acc b).intact + (countStep acc b).damagedDeformed +
        (countStep acc b).damagedOpen =
      acc.intact + acc.damagedDeformed + acc.damagedOpen +
        (if b.cls < classNames.length then 1 else 0) := by
  unfold countStep
  by_cases h2 : b.cls = 2
  · simp [h2, classNames]
    omega
  · by_cases h1 : b.cls = 1
    · simp [h1, classNames]
      omega
    · by_cases h0 : b.cls = 0
      · simp [h0, h1, h2, classNames]
        omega
      · have hge : ¬ b.cls < classNames.length := by
          simp only [classNames, List.length]
          omega
        simp [h0, h1, h2, hge]

theorem foldl_countStep_sum (boxes : List Box) :
    ∀ acc : Counts,
      (boxes.foldl countStep acc).intact + (boxes.foldl countStep acc).damagedDeformed +
          (boxes.foldl countStep acc).damagedOpen =
        acc.intact + acc.damagedDeformed + acc.damagedOpen +
          (boxes.filter fun b => decide (b.cls < classNames.length)).length := by
  induction boxes with
  | nil => intro acc; simp
  | cons b bs ih =>
    intro acc
    rw [List.foldl_cons, ih (countStep acc b), countStep_sum]
    by_cases h : b.cls < classNames.length
    · simp [List.filter_cons, h]
      omega
    · simp [List.filter_cons, h]

/-! ## Claim theorems for the detection pipeline -/

/-- Claim C9: an identity whose bottom edge is already at or below the
configured line on the frame of its first sighting (it is not yet in the
tracker, and the first detection carrying its id has `y2` at or past the
line) never fires a crossing event while it remains continuously tracked. -/
theorem c9_no_retroactive_crossing (lineY : Int) (t : List (Int × Int)) (i : Int)
    (f0 : List Box) (fs : List (List Box)) (b0 : Box)
    (hnone : lookupA t i = none)
    (hfind : f0.find? (isBoxOf i) = some b0)
    (hy : lineY ≤ b0.y2)
    (hp : ∀ f ∈ f0 :: fs, presentIn i f = true) :
    countFir i (runFrames lineY t (f0 :: fs)).2 = 0 := by
  rw [runFrames_cons, countFir_append]
  have h1 := annotate_first_sight hnone hfind hy
  have h2 := run_stAbove fs (annotate_frame lineY t f0).1
    (fun x hx => hp x (List.mem_cons_of_mem f0 hx)) h1.1
  rw [h1.2, h2.2]

/-- Witness for C9: identity 5 first seen at `y2 = 120`, below the line at
100, present for two frames, fires nothing. -/
theorem c9_witness :
    countFir 5 (runFrames 100 [] [[⟨0, 0, 10, 120, 2⟩], [⟨0, 0, 10, 120, 2⟩]]).2 = 0 :=
  c9_no_retroactive_crossing 100 [] 5 [⟨0, 0, 10, 120, 2⟩] [[⟨0, 0, 10, 120, 2⟩]]
    ⟨0, 0, 10, 120, 2⟩ (by decide) (by decide) (by decide) (by decide)

/-- Claim C10: for an identity present in every frame, the stored bottom
position changes only at first sighting or at the moment a crossing fires
(second conjunct: once tracked, the stored value survives any box unless
that box fires, in which case it becomes that box's `y2`), and consequently
such an identity fires at most one crossing event over the whole run (first
conjunct) — a second descent never fires without an eviction in between. -/
theorem c10_at_most_one_crossing (lineY i : Int) :
    (∀ (t : List (Int × Int)) (frames : List (List Box)),
        (∀ f ∈ frames, presentIn i f = true) →
        countFir i (runFrames lineY t frames).2 ≤ 1) ∧
    (∀ (acc : FrameAcc) (b : Box) (v : Int), lookupA acc.tracked i = some v →
        lookupA (processBox lineY acc b).tracked i = some v ∨
          (countFir i (processBox lineY acc b).firings = countFir i acc.firings + 1 ∧
            lookupA (processBox lineY acc b).tracked i = some b.y2)) := by
  constructor
  · exact fun t frames hp => run_le_one frames t hp
  · intro acc b v hv
    by_cases hcls : b.cls < classNames.length
    · cases hl : lookupA acc.tracked (objectId b) with
      | none =>
        have hne : i ≠ objectId b := by
          intro he
          rw [← he, hv] at hl
          cases hl
        left
        rw [processBox_new hcls hl, lookupA_insertA_ne _ _ _ _ hne]
        exact hv
      | some prev =>
        by_cases hcross : prev < lineY ∧ lineY ≤ b.y2
        · by_cases hoid : objectId b = i
          · right
            rw [processBox_fire hcls hl hcross]
            constructor
            · rw [countFir_append, countFir_single]
              simp [hoid]
            · rw [hoid]
              exact lookupA_insertA_self _ _ _
          · left
            have hne : i ≠ objectId b := fun he => hoid he.symm
            rw [processBox_fire hcls hl hcross, lookupA_insertA_ne _ _ _ _ hne]
            exact hv
        · left
          rw [processBox_nocross hcls hl hcross]
          exact hv
    · left
      rw [processBox_skip_cls hcls]
      exact hv

/-- Witness for C10: a crossing run of three frames fires at most once, and
a non-crossing box leaves the stored position 10 unchanged. -/
theorem c10_witness :
    countFir 5
        (runFrames 100 [] [[⟨0, 0, 10, 50, 2⟩], [⟨0, 0, 10, 120, 2⟩],
          [⟨0, 0, 10, 120, 2⟩]]).2 ≤ 1 ∧
      (lookupA (processBox 100 ⟨[(5, 10)], [], []⟩ ⟨0, 0, 10, 20, 2⟩).tracked 5 =
          some 10 ∨
        (countFir 5 (processBox 100 ⟨[(5, 10)], [], []⟩ ⟨0, 0, 10, 20, 2⟩).firings =
            countFir 5 (FrameAcc.mk [(5, 10)] [] []).firings + 1 ∧
          lookupA (processBox 100 ⟨[(5, 10)], [], []⟩ ⟨0, 0, 10, 20, 2⟩).tracked 5 =
            some 20)) :=
  ⟨(c10_at_most_one_crossing 100 5).1 []
      [[⟨0, 0, 10, 50, 2⟩], [⟨0, 0, 10, 120, 2⟩], [⟨0, 0, 10, 120, 2⟩]] (by decide),
    (c10_at_most_one_crossing 100 5).2 ⟨[(5, 10)], [], []⟩ ⟨0, 0, 10, 20, 2⟩ 10
      (by decide)⟩

/-- Claim C5: for a continuously tracked identity, a crossing fires exactly
when the stored previous bottom is above the line and the current bottom is
at or below it (first conjunct, an iff at the box level), and an identity
that crosses on a frame and stays present for the following frames fires
exactly one event in the whole run, not one per lingering frame, because
the stored position is advanced past the line on firing (second conjunct). -/
theorem c5_exactly_one_fire_per_crossing (lineY i : Int) :
    (∀ (acc : FrameAcc) (b : Box) (prev : Int), b.cls < classNames.length →
        objectId b = i → lookupA acc.tracked i = some prev →
        (countFir i (processBox lineY acc b).firings = countFir i acc.firings + 1 ↔
          (prev < lineY ∧ lineY ≤ b.y2))) ∧
    (∀ (t : List (Int × Int)) (prev : Int) (f0 : List Box) (fs : List (List Box))
        (b0 : Box),
        lookupA t i = some prev → prev < lineY →
        f0.find? (isBoxOf i) = some b0 → lineY ≤ b0.y2 →
        (∀ f ∈ fs, presentIn i f = true) →
        countFir i (runFrames lineY t (f0 :: fs)).2 = 1) := by
  constructor
  · intro acc b prev hcls hoid hl
    constructor
    · intro hcount
      by_contra hno
      have h := (processBox_nofire hcls hoid hl hno).2
      omega
    · intro hcross
      exact (processBox_fire_count hcls hoid hl hcross.1 hcross.2).1
  · intro t prev f0 fs b0 hsome hlt hfind hy hp
    rw [runFrames_cons, countFir_append]
    have h1 := annotate_cross hsome hlt hfind hy
    have h2 := run_stAbove fs (annotate_frame lineY t f0).1 hp h1.1
    rw [h1.2, h2.2]

/-- Witness for C5: identity 5 stored at 50 crosses the line at 100 when a
box with `y2 = 120` arrives (iff holds), and a crossing followed by two
lingering frames fires exactly once. -/
theorem c5_witness :
    (countFir 5 (processBox 100 ⟨[(5, 50)], [], []⟩ ⟨0, 0, 10, 120, 2⟩).firings =
        countFir 5 (FrameAcc.mk [(5, 50)] [] []).firings + 1 ↔
      ((50 : Int) < 100 ∧ (100 : Int) ≤ 120)) ∧
    countFir 5
      (runFrames 100 [(5, 50)] [[⟨0, 0, 10, 120, 2⟩], [⟨0, 0, 10, 120, 2⟩],
        [⟨0, 0, 10, 120, 2⟩]]).2 = 1 :=
  ⟨(c5_exactly_one_fire_per_crossing 100 5).1 ⟨[(5, 50)], [], []⟩ ⟨0, 0, 10, 120, 2⟩ 50
      (by decide) (by decide) (by decide),
    (c5_exactly_one_fire_per_crossing 100 5).2 [(5, 50)] 50 [⟨0, 0, 10, 120, 2⟩]
      [[⟨0, 0, 10, 120, 2⟩], [⟨0, 0, 10, 120, 2⟩]] ⟨0, 0, 10, 120, 2⟩ (by decide)
      (by decide) (by decide) (by decide) (by decide)⟩

/-- Claim C8 counterexample: identity 5 is tracked with stored bottom 10;
a detection for it arrives with bottom `y2 = 20`, no crossing occurs (line
at 100), and the stored value remains 10 — it is not overwritten with the
current frame's `y2`, refuting "the stored position is updated every frame
the identity persists". -/
theorem c8_counterexample :
    objectId ⟨0, 0, 10, 20, 2⟩ = 5 ∧
      lookupA (annotate_frame 100 [(5, 10)] [⟨0, 0, 10, 20, 2⟩]).1 5 = some 10 ∧
      lookupA (annotate_frame 100 [(5, 10)] [⟨0, 0, 10, 20, 2⟩]).1 5 ≠ some 20 := by
  decide

/-- Claim C8 as amended: for an existing identity the tracker compares the
previously stored bottom `y2` to the line threshold, but overwrites the
stored value with the current frame's `y2` only when the crossing condition
holds; otherwise the stored value is left unchanged (it is not refreshed on
every frame the identity persists). -/
theorem c8_amended_update_on_fire_only (lineY i : Int) (acc : FrameAcc) (b : Box)
    (prev : Int) (hcls : b.cls < classNames.length) (hoid : objectId b = i)
    (hl : lookupA acc.tracked i = some prev) :
    lookupA (processBox lineY acc b).tracked i =
      (if prev < lineY ∧ lineY ≤ b.y2 then some b.y2 else some prev) := by
  by_cases hcross : prev < lineY ∧ lineY ≤ b.y2
  · rw [if_pos hcross]
    have hl2 : lookupA acc.tracked (objectId b) = some prev := by
      rw [hoid]
      exact hl
    rw [processBox_fire hcls hl2 hcross, hoid]
    exact lookupA_insertA_self _ _ _
  · rw [if_neg hcross, (processBox_nofire hcls hoid hl hcross).1]
    exact hl

/-- Witness for the amended C8: at stored 10, line 100, current 20, the
stored value stays 10. -/
theorem c8_amended_witness :
    lookupA (processBox 100 ⟨[(5, 10)], [], []⟩ ⟨0, 0, 10, 20, 2⟩).tracked 5 =
      (if (10 : Int) < 100 ∧ (100 : Int) ≤ 20 then some (20 : Int) else some 10) :=
  c8_amended_update_on_fire_only 100 5 ⟨[(5, 10)], [], []⟩ ⟨0, 0, 10, 20, 2⟩ 10
    (by decide) (by decide) (by decide)

/-- Claim C4: per frame batch, a positive defective count `d` adds exactly
`d` to the watchdog counter; a zero defective count resets it; on reaching
at least 10, exactly one warning and one pause trigger are emitted, the
pipeline is paused and the counter resets to 0 — both under one defect per
frame for ten frames and under a single frame carrying ten defective
detections. -/
theorem c4_watchdog_batch (st : WatchState) (c : Counts) :
    (1 ≤ c.damagedDeformed + c.damagedOpen →
        st.count + (c.damagedDeformed + c.damagedOpen) < 10 →
        (handle_detections c st).state =
            ⟨st.count + (c.damagedDeformed + c.damagedOpen), st.paused⟩ ∧
          (handle_detections c st).warnings = [] ∧
          (handle_detections c st).pauseSignals = []) ∧
    (1 ≤ c.damagedDeformed + c.damagedOpen →
        10 ≤ st.count + (c.damagedDeformed + c.damagedOpen) →
        (handle_detections c st).warnings = [warnText] ∧
          (handle_detections c st).pauseSignals = ["paused"] ∧
          (handle_detections c st).state = ⟨0, true⟩) ∧
    (c.damagedDeformed + c.damagedOpen = 0 →
        (handle_detections c st).state = ⟨0, st.paused⟩ ∧
          (handle_detections c st).warnings = []) ∧
    runWatch ⟨0, false⟩ (List.replicate 10 ⟨0, 1, 0⟩) = (⟨0, true⟩, 1) ∧
    runWatch ⟨0, false⟩ (List.replicate 9 ⟨0, 1, 0⟩) = (⟨9, false⟩, 0) ∧
    runWatch ⟨0, false⟩ [⟨0, 4, 6⟩] = (⟨0, true⟩, 1) := by
  refine ⟨?_, ?_, ?_, by decide, by decide, by decide⟩
  · intro h1 h2
    simp only [handle_detections]
    rw [if_pos (show 0 < c.damagedDeformed + c.damagedOpen by omega),
      if_neg (show ¬ 10 ≤ st.count + (c.damagedDeformed + c.damagedOpen) by omega)]
    exact ⟨rfl, rfl, rfl⟩
  · intro h1 h2
    simp only [handle_detections]
    rw [if_pos (show 0 < c.damagedDeformed + c.damagedOpen by omega), if_pos h2]
    exact ⟨rfl, rfl, rfl⟩
  · intro h0
    simp only [handle_detections]
    rw [if_neg (show ¬ 0 < c.damagedDeformed + c.damagedOpen by omega)]
    exact ⟨rfl, rfl⟩

/-- Witness for C4: a single defective detection takes a fresh watchdog from
0 to 1 with no warning and no pause signal. -/
theorem c4_witness :
    (handle_detections ⟨0, 1, 0⟩ ⟨0, false⟩).state = ⟨1, false⟩ ∧
      (handle_detections ⟨0, 1, 0⟩ ⟨0, false⟩).warnings = [] ∧
      (handle_detections ⟨0, 1, 0⟩ ⟨0, false⟩).pauseSignals = [] :=
  (c4_watchdog_batch ⟨0, false⟩ ⟨0, 1, 0⟩).1 (by decide) (by decide)

/-- Claim C3 counterexample: one processed frame whose only detection
(identity 5, class Intact) stays above the line (its `y2 = 20` never
reaches the line at 100, so its bottom edge never transitions to at/below
the line), yet a `detection_result` emission attributable to it occurs:
`handle_detections` emits "Intact" for it even though no crossing fired. -/
theorem c3_counterexample :
    (∀ b ∈ [(⟨0, 0, 10, 20, 2⟩ : Box)], b.y2 < 100) ∧
      (pipelineFrame 100 ⟨[], ⟨0, false⟩⟩ [⟨0, 0, 10, 20, 2⟩]).crossings = [] ∧
      emissionsOf (pipelineFrame 100 ⟨[], ⟨0, false⟩⟩ [⟨0, 0, 10, 20, 2⟩]) =
        ["Intact"] ∧
      (["Intact"] : List String) ≠ ([] : List String) := by
  decide

/-- Chronological bottom-edge sightings of identity `i` within one frame's
box list, in processing order. -/
def sightBoxes (i : Int) (boxes : List Box) : List Int :=
  (boxes.filter (isBoxOf i)).map Box.y2

/-- Chronological bottom-edge sightings of identity `i` over a whole run. -/
def sightFrames (i : Int) (frames : List (List Box)) : List Int :=
  (frames.map (sightBoxes i)).flatten

/-- Any stored position for `i` that is above the line is followed only by
above-the-line sightings in the remaining stream `S`. -/
def storedSafe (lineY i : Int) (t : List (Int × Int)) (S : List Int) : Prop :=
  ∀ v, lookupA t i = some v → v < lineY → ∀ s ∈ S, s < lineY

theorem sightBoxes_cons_pos {i : Int} {b : Box} (bs : List Box)
    (h : isBoxOf i b = true) :
    sightBoxes i (b :: bs) = b.y2 :: sightBoxes i bs := by
  simp [sightBoxes, List.filter_cons, h]

theorem sightBoxes_cons_neg {i : Int} {b : Box} (bs : List Box)
    (h : ¬ isBoxOf i b = true) :
    sightBoxes i (b :: bs) = sightBoxes i bs := by
  simp [sightBoxes, List.filter_cons, h]

theorem foldl_nodescend {lineY i : Int} (boxes : List Box) :
    ∀ (acc : FrameAcc) (S : List Int),
      storedSafe lineY i acc.tracked (sightBoxes i boxes ++ S) →
      List.Pairwise (fun a b => a < lineY → b < lineY)
        (sightBoxes i boxes ++ S) →
      countFir i (boxes.foldl (processBox lineY) acc).firings =
          countFir i acc.firings ∧
        storedSafe lineY i (boxes.foldl (processBox lineY) acc).tracked S := by
  induction boxes with
  | nil =>
    intro acc S hP _
    exact ⟨rfl, by simpa [sightBoxes] using hP⟩
  | cons b bs ih =>
    intro acc S hP hPW
    rw [List.foldl_cons]
    by_cases hb : isBoxOf i b = true
    · have hio : b.cls < classNames.length ∧ objectId b = i := by
        simpa [isBoxOf] using hb
      rw [sightBoxes_cons_pos bs hb, List.cons_append] at hP hPW
      obtain ⟨hhead, htail⟩ := List.pairwise_cons.mp hPW
      cases hl : lookupA acc.tracked i with
      | none =>
        have h1 := @processBox_first lineY i acc b hio.1 hio.2 hl
        have hP2 : storedSafe lineY i (processBox lineY acc b).tracked
            (sightBoxes i bs ++ S) := by
          intro v hv hvlt s hs
          rw [h1.1] at hv
          have hvy : v = b.y2 := (Option.some.inj hv).symm
          exact hhead s hs (hvy ▸ hvlt)
        have h2 := ih (processBox lineY acc b) S hP2 htail
        exact ⟨h2.1.trans h1.2, h2.2⟩
      | some v =>
        have hnf : ¬ (v < lineY ∧ lineY ≤ b.y2) := by
          intro hc
          have := hP v hl hc.1 b.y2 (List.mem_cons_self _ _)
          omega
        have h1 := @processBox_nofire lineY i acc b v hio.1 hio.2 hl hnf
        have hP2 : storedSafe lineY i (processBox lineY acc b).tracked
            (sightBoxes i bs ++ S) := by
          intro w hw hwlt s hs
          rw [h1.1] at hw
          exact hP w hw hwlt s (List.mem_cons_of_mem _ hs)
        have h2 := ih (processBox lineY acc b) S hP2 htail
        exact ⟨h2.1.trans h1.2, h2.2⟩
    · have hnb : ¬ (b.cls < classNames.length ∧ objectId b = i) := by
        intro hc
        exact hb (by simp [isBoxOf, hc.1, hc.2])
      have h1 := @processBox_untouched lineY i acc b hnb
      rw [sightBoxes_cons_neg bs hb] at hP hPW
      have hP2 : storedSafe lineY i (processBox lineY acc b).tracked
          (sightBoxes i bs ++ S) := by
        intro v hv
        rw [h1.1] at hv
        exact hP v hv
      have h2 := ih (processBox lineY acc b) S hP2 hPW
      exact ⟨h2.1.trans h1.2, h2.2⟩

theorem storedSafe_filter {lineY i : Int} {t : List (Int × Int)} {S : List Int}
    (f : Int → Bool) (h : storedSafe lineY i t S) :
    storedSafe lineY i (t.filter fun p => f p.1) S := by
  intro v hv
  rw [lookupA_filter] at hv
  by_cases hc : f i
  · rw [if_pos hc] at hv
    exact h v hv
  · rw [if_neg hc] at hv
    cases hv

theorem annotate_nodescend {lineY i : Int} (t : List (Int × Int)) (boxes : List Box)
    (S : List Int) (hP : storedSafe lineY i t (sightBoxes i boxes ++ S))
    (hPW : List.Pairwise (fun a b => a < lineY → b < lineY)
      (sightBoxes i boxes ++ S)) :
    countFir i (annotate_frame lineY t boxes).2 = 0 ∧
      storedSafe lineY i (annotate_frame lineY t boxes).1 S := by
  have h := foldl_nodescend boxes ⟨t, [], []⟩ S hP hPW
  constructor
  · rw [annotate_frame_snd, h.1]
    rfl
  · rw [annotate_frame_fst]
    exact storedSafe_filter _ h.2

theorem run_nodescend {lineY i : Int} (frames : List (List Box)) :
    ∀ (t : List (Int × Int)) (S : List Int),
      storedSafe lineY i t (sightFrames i frames ++ S) →
      List.Pairwise (fun a b => a < lineY → b < lineY)
        (sightFrames i frames ++ S) →
      countFir i (runFrames lineY t frames).2 = 0 ∧
        storedSafe lineY i (runFrames lineY t frames).1 S := by
  induction frames with
  | nil =>
    intro t S hP _
    exact ⟨rfl, by simpa [sightFrames] using hP⟩
  | cons f fs ih =>
    intro t S hP hPW
    rw [runFrames_cons, countFir_append]
    have hsf : sightFrames i (f :: fs) = sightBoxes i f ++ sightFrames i fs := by
      simp [sightFrames]
    rw [hsf, List.append_assoc] at hP hPW
    have h1 := annotate_nodescend t f (sightFrames i fs ++ S) hP hPW
    have hPW2 : List.Pairwise (fun a b => a < lineY → b < lineY)
        (sightFrames i fs ++ S) :=
      List.Pairwise.sublist (List.sublist_append_right _ _) hPW
    have h2 := ih (annotate_frame lineY t f).1 S h1.2 hPW2
    exact ⟨by rw [h1.1, h2.1], h2.2⟩

/-- Claim C3 as amended: an identity not yet tracked whose bottom edge
never transitions from above the configured line to at/below it — no
earlier sighting above the line (`a < lineY`) is ever followed by a
sighting at/below it, stated as a `Pairwise` condition on its
chronological sighting stream — never causes a line-crossing emission from
`annotate_frame` over any run (first conjunct); however,
`handle_detections` additionally emits one `detection_result` per counted
detection on every frame — its emission count equals the frame's
counted-box total (second and third conjuncts) — so `detection_result`
emissions attributable to such an identity still occur. -/
theorem c3_amended_no_crossing_emission (lineY i : Int) :
    (∀ (t : List (Int × Int)) (frames : List (List Box)),
        lookupA t i = none →
        List.Pairwise (fun a b => a < lineY → b < lineY) (sightFrames i frames) →
        countFir i (runFrames lineY t frames).2 = 0) ∧
    (∀ (c : Counts) (st : WatchState),
        (handle_detections c st).results.length =
          c.intact + c.damagedDeformed + c.damagedOpen) ∧
    (∀ boxes : List Box,
        (count_detections boxes).intact + (count_detections boxes).damagedDeformed +
            (count_detections boxes).damagedOpen =
          (boxes.filter fun b => decide (b.cls < classNames.length)).length) := by
  refine ⟨?_, ?_, ?_⟩
  · intro t frames hnone hPW
    have hP : storedSafe lineY i t (sightFrames i frames ++ []) := by
      intro v hv
      rw [hnone] at hv
      cases hv
    have hPW2 : List.Pairwise (fun a b => a < lineY → b < lineY)
        (sightFrames i frames ++ []) := by
      rw [List.append_nil]
      exact hPW
    exact (run_nodescend frames t [] hP hPW2).1
  · intro c st
    simp only [handle_detections]
    split_ifs <;> simp only [List.length_append, List.length_replicate]
  · intro boxes
    have h := foldl_countStep_sum boxes ⟨0, 0, 0⟩
    simpa [count_detections] using h

/-- Witness for the amended C3: identity 5 is first seen at `y2 = 120`,
at/below the line at 100, and then moves above it to `y2 = 50` — its bottom
edge never transitions from above to at/below — and fires nothing, while a
frame counted as one intact detection emits exactly one result. -/
theorem c3_amended_witness :
    countFir 5 (runFrames 100 [] [[⟨0, 0, 10, 120, 2⟩], [⟨0, 0, 10, 50, 2⟩]]).2 = 0 ∧
      (handle_detections ⟨1, 0, 0⟩ ⟨0, false⟩).results.length = 1 + 0 + 0 :=
  ⟨(c3_amended_no_crossing_emission 100 5).1 []
      [[⟨0, 0, 10, 120, 2⟩], [⟨0, 0, 10, 50, 2⟩]] (by decide) (by decide),
    (c3_amended_no_crossing_emission 100 5).2.1 ⟨1, 0, 0⟩ ⟨0, false⟩⟩

/-! ## Upsert lemmas for the rollup tables -/

theorem upsert_lookup_self {α : Type} [DecidableEq α] (m : List (α × RollupRow))
    (k : α) (row : RollupRow) :
    ∃ r, lookupA (upsertRow m k row) k = some r ∧ r.total = row.total ∧
      r.intact_count = row.intact_count ∧
      r.damaged_deformed_count = row.damaged_deformed_count ∧
      r.damaged_open_count = row.damaged_open_count := by
  induction m with
  | nil => exact ⟨row, by simp [upsertRow, lookupA], rfl, rfl, rfl, rfl⟩
  | cons p rest ih =>
    by_cases hp : p.1 = k
    · have hr : lookupA (upsertRow (p :: rest) k row) k = some
          { p.2 with
            total := row.total
            intact_count := row.intact_count
            damaged_deformed_count := row.damaged_deformed_count
            damaged_open_count := row.damaged_open_count } := by
        rw [upsertRow, if_pos hp]
        simp only [lookupA]
        rw [if_pos hp]
      exact ⟨_, hr, rfl, rfl, rfl, rfl⟩
    · obtain ⟨r, hr, h1, h2, h3, h4⟩ := ih
      refine ⟨r, ?_, h1, h2, h3, h4⟩
      rw [upsertRow, if_neg hp, lookupA, if_neg hp]
      exact hr

theorem upsert_lookup_ne {α : Type} [DecidableEq α] (m : List (α × RollupRow))
    (k k2 : α) (row : RollupRow) (h : k2 ≠ k) :
    lookupA (upsertRow m k row) k2 = lookupA m k2 := by
  have hne : k ≠ k2 := fun he => h he.symm
  induction m with
  | nil => simp only [upsertRow, lookupA, if_neg hne]
  | cons p rest ih =>
    by_cases hp : p.1 = k
    · have hp2 : ¬ p.1 = k2 := by
        rw [hp]
        exact hne
      rw [upsertRow, if_pos hp]
      simp only [lookupA]
      rw [if_neg hp2, if_neg hp2]
    · rw [upsertRow, if_neg hp]
      simp only [lookupA]
      by_cases hp2 : p.1 = k2
      · rw [if_pos hp2, if_pos hp2]
      · rw [if_neg hp2, if_neg hp2, ih]

theorem upsert_keys_mem {α : Type} [DecidableEq α] (m : List (α × RollupRow))
    (k k2 : α) (row : RollupRow)
    (h : k2 ∈ (upsertRow m k row).map Prod.fst) :
    k2 ∈ m.map Prod.fst ∨ k2 = k := by
  induction m with
  | nil =>
    right
    have hk : (upsertRow ([] : List (α × RollupRow)) k row).map Prod.fst = [k] := rfl
    rw [hk] at h
    simpa using h
  | cons p rest ih =>
    by_cases hp : p.1 = k
    · rw [upsertRow, if_pos hp] at h
      simp only [List.map_cons] at h ⊢
      rcases List.mem_cons.mp h with h | h
      · exact Or.inl (List.mem_cons.mpr (Or.inl h))
      · exact Or.inl (List.mem_cons.mpr (Or.inr h))
    · rw [upsertRow, if_neg hp] at h
      simp only [List.map_cons] at h ⊢
      rcases List.mem_cons.mp h with h | h
      · exact Or.inl (List.mem_cons.mpr (Or.inl h))
      · rcases ih h with h2 | h2
        · exact Or.inl (List.mem_cons.mpr (Or.inr h2))
        · exact Or.inr h2

theorem upsert_keys_nodup {α : Type} [DecidableEq α] (m : List (α × RollupRow))
    (k : α) (row : RollupRow) (hnd : (m.map Prod.fst).Nodup) :
    ((upsertRow m k row).map Prod.fst).Nodup := by
  induction m with
  | nil => simp [upsertRow]
  | cons p rest ih =>
    rw [List.map_cons, List.nodup_cons] at hnd
    by_cases hp : p.1 = k
    · rw [upsertRow, if_pos hp, List.map_cons, List.nodup_cons]
      exact hnd
    · rw [upsertRow, if_neg hp, List.map_cons, List.nodup_cons]
      refine ⟨?_, ih hnd.2⟩
      intro hm
      rcases upsert_keys_mem rest k p.1 row hm with h2 | h2
      · exact hnd.1 h2
      · exact hp h2

/-! ## Structural lemmas for the store operations -/

theorem update_summary_log (db : DB) (d : DateKey) (year : Nat) (month : String)
    (week : Nat × Nat) :
    (update_defect_summary db d year month week).detection_results =
      db.detection_results := by
  simp only [update_defect_summary]
  split_ifs <;> rfl

theorem update_summary_trends (db : DB) (d : DateKey) (year : Nat) (month : String)
    (week : Nat × Nat) :
    (update_defect_summary db d year month week).defect_trends = db.defect_trends := by
  simp only [update_defect_summary]
  split_ifs <;> rfl

theorem update_trends_log (db : DB) (d : DateKey) (year : Nat) (month : String)
    (week : Nat × Nat) :
    (update_defect_trends db d year month week).detection_results =
      db.detection_results := by
  simp only [update_defect_trends]
  split_ifs <;> rfl

theorem update_trends_summary (db : DB) (d : DateKey) (year : Nat) (month : String)
    (week : Nat × Nat) :
    (update_defect_trends db d year month week).defect_summary = db.defect_summary := by
  simp only [update_defect_trends]
  split_ifs <;> rfl

theorem update_summary_apply (db : DB) (d : DateKey) (year : Nat) (month : String)
    (week : Nat × Nat) (h : eventsOnDate db.detection_results d ≠ []) :
    (update_defect_summary db d year month week).defect_summary =
      upsertRow db.defect_summary d
        ⟨year, month, week, (eventsOnDate db.detection_results d).length,
          statusCount (eventsOnDate db.detection_results d) "Intact",
          statusCount (eventsOnDate db.detection_results d) "Damaged-Deformed",
          statusCount (eventsOnDate db.detection_results d) "Damaged-Open"⟩ := by
  simp only [update_defect_summary]
  rw [if_neg (by simpa using h)]

theorem update_trends_apply (db : DB) (d : DateKey) (year : Nat) (month : String)
    (week : Nat × Nat) (h : eventsInMonth db.detection_results d.1 d.2.1 ≠ []) :
    (update_defect_trends db d year month week).defect_trends =
      upsertRow db.defect_trends month
        ⟨year, month, week, (eventsInMonth db.detection_results d.1 d.2.1).length,
          statusCount (eventsInMonth db.detection_results d.1 d.2.1) "Intact",
          statusCount (eventsInMonth db.detection_results d.1 d.2.1) "Damaged-Deformed",
          statusCount (eventsInMonth db.detection_results d.1 d.2.1) "Damaged-Open"⟩ := by
  simp only [update_defect_trends]
  rw [if_neg (by simpa using h)]

theorem insertOk_eq (db : DB) (e : EventRow) :
    insertOk db e =
      update_defect_trends
        (update_defect_summary
          { db with detection_results := db.detection_results ++ [e] }
          (dateOf e.ts) e.ts.year (monthName e.ts.month) (weekTag e.ts))
        (dateOf e.ts) e.ts.year (monthName e.ts.month) (weekTag e.ts) :=
  rfl

theorem insertOk_log (db : DB) (e : EventRow) :
    (insertOk db e).detection_results = db.detection_results ++ [e] := by
  rw [insertOk_eq, update_trends_log, update_summary_log]

/-! ## Filter lemmas for the recompute queries -/

theorem eventsOnDate_append (log : List EventRow) (e : EventRow) (d : DateKey) :
    eventsOnDate (log ++ [e]) d =
      eventsOnDate log d ++ (if dateOf e.ts = d then [e] else []) := by
  unfold eventsOnDate
  rw [List.filter_append]
  congr 1
  by_cases h : dateOf e.ts = d <;> simp [h]

theorem eventsInMonth_append (log : List EventRow) (e : EventRow) (y m : Nat) :
    eventsInMonth (log ++ [e]) y m =
      eventsInMonth log y m ++ (if e.ts.year = y ∧ e.ts.month = m then [e] else []) := by
  unfold eventsInMonth
  rw [List.filter_append]
  congr 1
  by_cases h : e.ts.year = y ∧ e.ts.month = m <;> simp [h]

theorem eventsOnDate_self_mem (log : List EventRow) (e : EventRow) (he : e ∈ log) :
    e ∈ eventsOnDate log (dateOf e.ts) := by
  unfold eventsOnDate
  rw [List.mem_filter]
  exact ⟨he, by simp⟩

theorem eventsInMonth_self_mem (log : List EventRow) (e : EventRow) (he : e ∈ log) :
    e ∈ eventsInMonth log e.ts.year e.ts.month := by
  unfold eventsInMonth
  rw [List.mem_filter]
  exact ⟨he, by simp⟩

/-! ## Store invariants: daily summary rows always equal the recompute -/

/-- Every `defect_summary` row carries exactly the recompute of its date
over the current log, and a row exists exactly for dates with events. -/
def InvS (db : DB) : Prop :=
  (∀ d r, lookupA db.defect_summary d = some r →
      r.total = (eventsOnDate db.detection_results d).length ∧
      r.intact_count = statusCount (eventsOnDate db.detection_results d) "Intact" ∧
      r.damaged_deformed_count =
        statusCount (eventsOnDate db.detection_results d) "Damaged-Deformed" ∧
      r.damaged_open_count =
        statusCount (eventsOnDate db.detection_results d) "Damaged-Open" ∧
      eventsOnDate db.detection_results d ≠ []) ∧
  (∀ d, lookupA db.defect_summary d = none →
      eventsOnDate db.detection_results d = [])

/-- The summary table's primary key stays a key. -/
def SKeysND (db : DB) : Prop := (db.defect_summary.map Prod.fst).Nodup

/-- Every month with an event has a `defect_trends` row under its month
name whose total is the recompute of that calendar month over the log. -/
def InvT (db : DB) : Prop :=
  ∀ y m, (∃ e ∈ db.detection_results, e.ts.year = y ∧ e.ts.month = m) →
    ∃ r, lookupA db.defect_trends (monthName m) = some r ∧
      r.total = (eventsInMonth db.detection_results y m).length

theorem insertOk_summary (db : DB) (e : EventRow) :
    (insertOk db e).defect_summary =
      upsertRow db.defect_summary (dateOf e.ts)
        ⟨e.ts.year, monthName e.ts.month, weekTag e.ts,
          (eventsOnDate (db.detection_results ++ [e]) (dateOf e.ts)).length,
          statusCount (eventsOnDate (db.detection_results ++ [e]) (dateOf e.ts))
            "Intact",
          statusCount (eventsOnDate (db.detection_results ++ [e]) (dateOf e.ts))
            "Damaged-Deformed",
          statusCount (eventsOnDate (db.detection_results ++ [e]) (dateOf e.ts))
            "Damaged-Open"⟩ := by
  rw [insertOk_eq, update_trends_summary, update_summary_apply]
  intro hempty
  have hmem := eventsOnDate_self_mem (db.detection_results ++ [e]) e
    (List.mem_append.mpr (Or.inr (List.mem_singleton.mpr rfl)))
  rw [hempty] at hmem
  simp at hmem

theorem insertOk_trends (db : DB) (e : EventRow) :
    (insertOk db e).defect_trends =
      upsertRow db.defect_trends (monthName e.ts.month)
        ⟨e.ts.year, monthName e.ts.month, weekTag e.ts,
          (eventsInMonth (db.detection_results ++ [e]) e.ts.year e.ts.month).length,
          statusCount (eventsInMonth (db.detection_results ++ [e]) e.ts.year
            e.ts.month) "Intact",
          statusCount (eventsInMonth (db.detection_results ++ [e]) e.ts.year
            e.ts.month) "Damaged-Deformed",
          statusCount (eventsInMonth (db.detection_results ++ [e]) e.ts.year
            e.ts.month) "Damaged-Open"⟩ := by
  rw [insertOk_eq]
  rw [update_trends_apply]
  · rw [update_summary_trends, update_summary_log]
    rfl
  · rw [update_summary_log]
    show eventsInMonth (db.detection_results ++ [e]) e.ts.year e.ts.month ≠ []
    intro hempty
    have hmem := eventsInMonth_self_mem (db.detection_results ++ [e]) e
      (List.mem_append.mpr (Or.inr (List.mem_singleton.mpr rfl)))
    rw [hempty] at hmem
    simp at hmem

theorem insertOk_InvS (db : DB) (e : EventRow) (h : InvS db) : InvS (insertOk db e) := by
  have hlog := insertOk_log db e
  have hsum := insertOk_summary db e
  constructor
  · intro d r hr
    rw [hlog]
    by_cases hd : d = dateOf e.ts
    · subst hd
      obtain ⟨r2, hr2, h1, h2, h3, h4⟩ := upsert_lookup_self db.defect_summary
        (dateOf e.ts)
        ⟨e.ts.year, monthName e.ts.month, weekTag e.ts,
          (eventsOnDate (db.detection_results ++ [e]) (dateOf e.ts)).length,
          statusCount (eventsOnDate (db.detection_results ++ [e]) (dateOf e.ts))
            "Intact",
          statusCount (eventsOnDate (db.detection_results ++ [e]) (dateOf e.ts))
            "Damaged-Deformed",
          statusCount (eventsOnDate (db.detection_results ++ [e]) (dateOf e.ts))
            "Damaged-Open"⟩
      rw [hsum, hr2] at hr
      have hre : r = r2 := (Option.some.inj hr).symm
      subst hre
      refine ⟨by rw [h1], by rw [h2], by rw [h3], by rw [h4], ?_⟩
      intro hempty
      have hmem := eventsOnDate_self_mem (db.detection_results ++ [e]) e
        (List.mem_append.mpr (Or.inr (List.mem_singleton.mpr rfl)))
      rw [hempty] at hmem
      simp at hmem
    · rw [hsum, upsert_lookup_ne _ _ _ _ hd] at hr
      have heod : eventsOnDate (db.detection_results ++ [e]) d =
          eventsOnDate db.detection_results d := by
        rw [eventsOnDate_append, if_neg (fun he => hd he.symm)]
        simp
      rw [heod]
      exact h.1 d r hr
  · intro d hnone
    rw [hlog]
    by_cases hd : d = dateOf e.ts
    · subst hd
      obtain ⟨r2, hr2, _⟩ := upsert_lookup_self db.defect_summary (dateOf e.ts)
        ⟨e.ts.year, monthName e.ts.month, weekTag e.ts,
          (eventsOnDate (db.detection_results ++ [e]) (dateOf e.ts)).length,
          statusCount (eventsOnDate (db.detection_results ++ [e]) (dateOf e.ts))
            "Intact",
          statusCount (eventsOnDate (db.detection_results ++ [e]) (dateOf e.ts))
            "Damaged-Deformed",
          statusCount (eventsOnDate (db.detection_results ++ [e]) (dateOf e.ts))
            "Damaged-Open"⟩
      rw [hsum, hr2] at hnone
      cases hnone
    · rw [hsum, upsert_lookup_ne _ _ _ _ hd] at hnone
      rw [eventsOnDate_append, if_neg (fun he => hd he.symm)]
      simp [h.2 d hnone]

theorem insertOk_SKeysND (db : DB) (e : EventRow) (h : SKeysND db) :
    SKeysND (insertOk db e) := by
  unfold SKeysND
  rw [insertOk_summary]
  exact upsert_keys_nodup _ _ _ h

/-- `monthName` is injective on the range `strptime` produces (taking 0 as
the out-of-range placeholder into account as well). -/
theorem monthName_inj : ∀ m1 : Nat, m1 < 13 → ∀ m2 : Nat, m2 < 13 →
    monthName m1 = monthName m2 → m1 = m2 := by decide

theorem insertOk_InvT (db : DB) (e : EventRow) (hT : InvT db)
    (hve : validTS e.ts)
    (hvl : ∀ x ∈ db.detection_results, validTS x.ts)
    (hmyu : ∀ x ∈ db.detection_results, x.ts.month = e.ts.month →
      x.ts.year = e.ts.year) :
    InvT (insertOk db e) := by
  have hlog := insertOk_log db e
  have htr := insertOk_trends db e
  intro y m hex
  rw [hlog] at hex ⊢
  obtain ⟨x, hx, hxy, hxm⟩ := hex
  by_cases hm : m = e.ts.month
  · have hy : y = e.ts.year := by
      rcases List.mem_append.mp hx with hxl | hxr
      · rw [← hxy]
        exact hmyu x hxl (by rw [hxm, hm])
      · have hxe : x = e := List.mem_singleton.mp hxr
        rw [← hxy, hxe]
    subst hm
    subst hy
    obtain ⟨r2, hr2, h1, _⟩ := upsert_lookup_self db.defect_trends
      (monthName e.ts.month)
      ⟨e.ts.year, monthName e.ts.month, weekTag e.ts,
        (eventsInMonth (db.detection_results ++ [e]) e.ts.year e.ts.month).length,
        statusCount (eventsInMonth (db.detection_results ++ [e]) e.ts.year
          e.ts.month) "Intact",
        statusCount (eventsInMonth (db.detection_results ++ [e]) e.ts.year
          e.ts.month) "Damaged-Deformed",
        statusCount (eventsInMonth (db.detection_results ++ [e]) e.ts.year
          e.ts.month) "Damaged-Open"⟩
    refine ⟨r2, ?_, ?_⟩
    · rw [htr]
      exact hr2
    · rw [h1]
  · have hxnote : x ≠ e := by
      intro hxe
      exact hm (by rw [← hxm, hxe])
    have hxl : x ∈ db.detection_results := by
      rcases List.mem_append.mp hx with hxl | hxr
      · exact hxl
      · exact absurd (List.mem_singleton.mp hxr) hxnote
    have hmle : m < 13 := by
      obtain ⟨hva, hvb⟩ := hvl x hxl
      rw [hxm] at hvb
      omega
    have hmele : e.ts.month < 13 := by
      obtain ⟨hva, hvb⟩ := hve
      omega
    have hname : monthName m ≠ monthName e.ts.month := by
      intro he
      exact hm (monthName_inj m hmle e.ts.month hmele he)
    have hold := hT y m ⟨x, hxl, hxy, hxm⟩
    obtain ⟨r, hr, hrt⟩ := hold
    refine ⟨r, ?_, ?_⟩
    · rw [htr, upsert_lookup_ne _ _ _ _ hname]
      exact hr
    · rw [eventsInMonth_append, if_neg (fun hc => hm (by rw [← hc.2]))]
      simpa using hrt

/-! ## Whole-run invariants -/

theorem runInserts_S (events : List EventRow) :
    ∀ db : DB, InvS db → SKeysND db →
      InvS (events.foldl insertOk db) ∧ SKeysND (events.foldl insertOk db) ∧
        (events.foldl insertOk db).detection_results =
          db.detection_results ++ events := by
  induction events with
  | nil => exact fun db hS hK => ⟨hS, hK, by simp⟩
  | cons e rest ih =>
    intro db hS hK
    rw [List.foldl_cons]
    obtain ⟨h1, h2, h3⟩ := ih (insertOk db e) (insertOk_InvS db e hS)
      (insertOk_SKeysND db e hK)
    refine ⟨h1, h2, ?_⟩
    rw [h3, insertOk_log]
    simp

theorem runInserts_T (events : List EventRow) :
    ∀ db : DB, InvT db →
      (∀ x ∈ db.detection_results ++ events, validTS x.ts) →
      (∀ x1 ∈ db.detection_results ++ events, ∀ x2 ∈ db.detection_results ++ events,
          x1.ts.month = x2.ts.month → x1.ts.year = x2.ts.year) →
      InvT (events.foldl insertOk db) := by
  induction events with
  | nil => exact fun db hT _ _ => hT
  | cons e rest ih =>
    intro db hT hv hmyu
    rw [List.foldl_cons]
    have hemem : e ∈ db.detection_results ++ e :: rest :=
      List.mem_append.mpr (Or.inr (List.mem_cons_self e rest))
    have hT2 := insertOk_InvT db e hT (hv e hemem)
      (fun x hx => hv x (List.mem_append.mpr (Or.inl hx)))
      (fun x hx hxm => hmyu x (List.mem_append.mpr (Or.inl hx)) e hemem hxm)
    have hlog := insertOk_log db e
    have hre : (insertOk db e).detection_results ++ rest =
        db.detection_results ++ e :: rest := by
      rw [hlog, List.append_assoc]
      rfl
    exact ih (insertOk db e) hT2 (by rw [hre]; exact hv) (by rw [hre]; exact hmyu)

theorem emptyDB_InvS : InvS emptyDB := by
  constructor
  · intro d r hr
    simp [emptyDB, lookupA] at hr
  · intro d _
    rfl

theorem emptyDB_SKeysND : SKeysND emptyDB := by
  simp [SKeysND, emptyDB]

theorem emptyDB_InvT : InvT emptyDB := by
  intro y m hex
  simp [emptyDB] at hex

/-! ## Relating the monthly recompute to the daily recomputes -/

theorem mapCongrOn {α β : Type} (K : List α) (f g : α → β)
    (h : ∀ a ∈ K, f a = g a) : K.map f = K.map g := by
  induction K with
  | nil => rfl
  | cons a K ih =>
    rw [List.map_cons, List.map_cons, h a (List.mem_cons_self a K),
      ih fun x hx => h x (List.mem_cons_of_mem a hx)]

theorem sum_map_add {α : Type} (K : List α) (f g : α → Nat) :
    (K.map fun a => f a + g a).sum = (K.map f).sum + (K.map g).sum := by
  induction K with
  | nil => rfl
  | cons a K ih =>
    simp only [List.map_cons, List.sum_cons, ih]
    omega

theorem sum_map_zero {α : Type} (K : List α) :
    (K.map fun _ => (0 : Nat)).sum = 0 := by
  induction K with
  | nil => rfl
  | cons a K ih => simp only [List.map_cons, List.sum_cons, ih]

theorem indicator_sum {α : Type} [DecidableEq α] (K : List α) (a : α)
    (hnd : K.Nodup) :
    (K.map fun d => if a = d then 1 else 0).sum = if a ∈ K then 1 else 0 := by
  induction K with
  | nil => simp
  | cons d K ih =>
    rw [List.nodup_cons] at hnd
    rw [List.map_cons, List.sum_cons]
    by_cases ha : a = d
    · rw [if_pos ha, if_pos (ha ▸ List.mem_cons_self d K), ih hnd.2,
        if_neg (ha ▸ hnd.1)]
    · rw [if_neg ha, ih hnd.2]
      by_cases hm : a ∈ K
      · rw [if_pos hm, if_pos (List.mem_cons_of_mem d hm)]
      · rw [if_neg hm, if_neg (by simp [ha, hm])]

theorem eventsOnDate_cons_length (e : EventRow) (log : List EventRow) (d : DateKey) :
    (eventsOnDate (e :: log) d).length =
      (if dateOf e.ts = d then 1 else 0) + (eventsOnDate log d).length := by
  unfold eventsOnDate
  rw [List.filter_cons]
  by_cases h : dateOf e.ts = d
  · simp [h, Nat.add_comm]
  · simp [h]

theorem eventsInMonth_cons_length (e : EventRow) (log : List EventRow) (y m : Nat) :
    (eventsInMonth (e :: log) y m).length =
      (if e.ts.year = y ∧ e.ts.month = m then 1 else 0) +
        (eventsInMonth log y m).length := by
  unfold eventsInMonth
  rw [List.filter_cons]
  by_cases h : e.ts.year = y ∧ e.ts.month = m
  · simp [h, Nat.add_comm]
  · simp [h]

theorem count_partition (y m : Nat) (log : List EventRow) :
    ∀ K : List DateKey, K.Nodup →
      (∀ d ∈ K, d.1 = y ∧ d.2.1 = m) →
      (∀ e ∈ log, e.ts.year = y → e.ts.month = m → dateOf e.ts ∈ K) →
      (K.map fun d => (eventsOnDate log d).length).sum =
        (eventsInMonth log y m).length := by
  induction log with
  | nil =>
    intro K _ _ _
    have hz : (K.map fun d => (eventsOnDate ([] : List EventRow) d).length) =
        K.map fun _ => (0 : Nat) := mapCongrOn K _ _ fun d _ => rfl
    rw [hz, sum_map_zero]
    rfl
  | cons e log ih =>
    intro K hnd hK hcov
    have hmap : (K.map fun d => (eventsOnDate (e :: log) d).length) =
        K.map fun d =>
          (if dateOf e.ts = d then 1 else 0) + (eventsOnDate log d).length :=
      mapCongrOn K _ _ fun d _ => eventsOnDate_cons_length e log d
    rw [hmap, sum_map_add, indicator_sum K (dateOf e.ts) hnd,
      eventsInMonth_cons_length,
      ih K hnd hK fun x hx hxy hxm => hcov x (List.mem_cons_of_mem e hx) hxy hxm]
    by_cases hym : e.ts.year = y ∧ e.ts.month = m
    · rw [if_pos (hcov e (List.mem_cons_self e log) hym.1 hym.2), if_pos hym]
    · have hnm : dateOf e.ts ∉ K := by
        intro hmem
        have hp := hK (dateOf e.ts) hmem
        exact hym ⟨hp.1, hp.2⟩
      rw [if_neg hnm, if_neg hym]

theorem sum_daily_eq (db : DB) (hS : InvS db) (hnd : SKeysND db) (y m : Nat) :
    sumDailyTotals db y m = (eventsInMonth db.detection_results y m).length := by
  unfold sumDailyTotals
  have hstep : ((db.defect_summary.filter fun p =>
        decide (p.1.1 = y ∧ p.1.2.1 = m)).map fun p => p.2.total) =
      (db.defect_summary.filter fun p => decide (p.1.1 = y ∧ p.1.2.1 = m)).map
        fun p => (eventsOnDate db.detection_results p.1).length := by
    apply mapCongrOn
    intro p hp
    have hpm : p ∈ db.defect_summary := List.mem_of_mem_filter hp
    have hl : lookupA db.defect_summary p.1 = some p.2 :=
      mem_lookupA_nodup db.defect_summary p.1 p.2 hnd hpm
    exact (hS.1 p.1 p.2 hl).1
  rw [hstep]
  have hmm : ((db.defect_summary.filter fun p =>
        decide (p.1.1 = y ∧ p.1.2.1 = m)).map
          fun p => (eventsOnDate db.detection_results p.1).length) =
      ((db.defect_summary.filter fun p =>
        decide (p.1.1 = y ∧ p.1.2.1 = m)).map Prod.fst).map
          fun d => (eventsOnDate db.detection_results d).length := by
    rw [List.map_map]
    rfl
  rw [hmm]
  apply count_partition
  · have hsub : (db.defect_summary.filter fun p =>
        decide (p.1.1 = y ∧ p.1.2.1 = m)).Sublist db.defect_summary :=
      List.filter_sublist db.defect_summary
    exact List.Nodup.sublist (hsub.map Prod.fst) hnd
  · intro d hd
    obtain ⟨p, hp, hpd⟩ := List.mem_map.mp hd
    have := (List.mem_filter.mp hp).2
    rw [← hpd]
    exact of_decide_eq_true this
  · intro e he hy hm
    have hne : eventsOnDate db.detection_results (dateOf e.ts) ≠ [] := by
      intro hempty
      have hmem := eventsOnDate_self_mem db.detection_results e he
      rw [hempty] at hmem
      simp at hmem
    cases hl : lookupA db.defect_summary (dateOf e.ts) with
    | none => exact absurd (hS.2 (dateOf e.ts) hl) hne
    | some r =>
      have hpm : (dateOf e.ts, r) ∈ db.defect_summary :=
        lookupA_mem db.defect_summary (dateOf e.ts) r hl
      refine List.mem_map.mpr ⟨(dateOf e.ts, r), ?_, rfl⟩
      rw [List.mem_filter]
      refine ⟨hpm, ?_⟩
      apply decide_eq_true
      exact ⟨hy, hm⟩

theorem runInserts_eq (events : List EventRow) :
    runInserts events = events.foldl insertOk emptyDB := rfl

/-! ## Claim theorems for the aggregation store -/

theorem length_eq_statusCounts (l : List EventRow)
    (h : ∀ e ∈ l, e.status = "Intact" ∨ e.status = "Damaged-Deformed" ∨
      e.status = "Damaged-Open") :
    l.length = statusCount l "Intact" + statusCount l "Damaged-Deformed" +
      statusCount l "Damaged-Open" := by
  induction l with
  | nil => rfl
  | cons e l ih =>
    have ihh := ih fun x hx => h x (List.mem_cons_of_mem e hx)
    rcases h e (List.mem_cons_self e l) with h1 | h1 | h1 <;>
      simp [statusCount, List.filter_cons, h1] <;>
      simp [statusCount] at ihh <;>
      omega

/-- Claim C7: after any sequence of `record` calls with classification
statuses, every date with at least one logged event has a `defect_summary`
row satisfying `total_count = intact_count + damaged_deformed_count +
damaged_open_count`, because the row is recomputed from that day's full
event set on every insert. -/
theorem c7_summary_total_is_class_sum (events : List EventRow)
    (hstat : ∀ e ∈ events, e.status = "Intact" ∨ e.status = "Damaged-Deformed" ∨
      e.status = "Damaged-Open")
    (d : DateKey) (hne : eventsOnDate events d ≠ []) :
    ∃ r, lookupA (runInserts events).defect_summary d = some r ∧
      r.total = r.intact_count + r.damaged_deformed_count +
        r.damaged_open_count := by
  rw [runInserts_eq]
  obtain ⟨hS, hK, hlog⟩ := runInserts_S events emptyDB emptyDB_InvS emptyDB_SKeysND
  have hlogE : (events.foldl insertOk emptyDB).detection_results = events :=
    hlog.trans (by simp [emptyDB])
  cases hl : lookupA (events.foldl insertOk emptyDB).defect_summary d with
  | none =>
    have hz := hS.2 d hl
    rw [hlogE] at hz
    exact absurd hz hne
  | some r =>
    have hp := hS.1 d r hl
    refine ⟨r, rfl, ?_⟩
    rw [hp.1, hp.2.1, hp.2.2.1, hp.2.2.2.1]
    apply length_eq_statusCounts
    intro e he
    have hm : e ∈ (events.foldl insertOk emptyDB).detection_results :=
      List.mem_of_mem_filter he
    rw [hlogE] at hm
    exact hstat e hm

/-- Witness for C7: two same-date events yield a summary row whose total is
the sum of the three class counts. -/
theorem c7_witness :
    ∃ r, lookupA (runInserts [⟨⟨2024, 3, 1, 10, 0, 0⟩, "Intact", "a"⟩,
        ⟨⟨2024, 3, 1, 11, 0, 0⟩, "Damaged-Open", "b"⟩]).defect_summary
          (2024, 3, 1) = some r ∧
      r.total = r.intact_count + r.damaged_deformed_count +
        r.damaged_open_count :=
  c7_summary_total_is_class_sum
    [⟨⟨2024, 3, 1, 10, 0, 0⟩, "Intact", "a"⟩,
      ⟨⟨2024, 3, 1, 11, 0, 0⟩, "Damaged-Open", "b"⟩]
    (by decide) (2024, 3, 1) (by decide)

theorem statusCount_map (l : List EventRow) (s : String) :
    statusCount l s =
      ((l.map EventRow.status).filter fun t => decide (t = s)).length := by
  induction l with
  | nil => rfl
  | cons e l ih =>
    unfold statusCount at ih ⊢
    rw [List.map_cons, List.filter_cons, List.filter_cons]
    by_cases h : e.status = s
    · rw [if_pos (decide_eq_true h), if_pos (decide_eq_true h),
        List.length_cons, List.length_cons, ih]
    · rw [if_neg (fun hc => h (of_decide_eq_true hc)),
        if_neg (fun hc => h (of_decide_eq_true hc)), ih]

/-- Claim C6: recording the three events Intact, Damaged-Open, Damaged-Open
with timestamps on 2024-03-01, in any order, yields a DailySummary row for
that date with total 3, intact 1, damaged_deformed 0 and damaged_open 2. -/
theorem c6_three_event_example (events : List EventRow)
    (hperm : (events.map EventRow.status).Perm
      ["Intact", "Damaged-Open", "Damaged-Open"])
    (hdate : ∀ e ∈ events, dateOf e.ts = (2024, 3, 1)) :
    ∃ r, lookupA (runInserts events).defect_summary (2024, 3, 1) = some r ∧
      r.total = 3 ∧ r.intact_count = 1 ∧ r.damaged_deformed_count = 0 ∧
      r.damaged_open_count = 2 := by
  rw [runInserts_eq]
  obtain ⟨hS, hK, hlog⟩ := runInserts_S events emptyDB emptyDB_InvS emptyDB_SKeysND
  have hlogE : (events.foldl insertOk emptyDB).detection_results = events :=
    hlog.trans (by simp [emptyDB])
  have hall : eventsOnDate (events.foldl insertOk emptyDB).detection_results
      (2024, 3, 1) = events := by
    rw [hlogE]
    unfold eventsOnDate
    apply List.filter_eq_self.mpr
    intro e he
    exact decide_eq_true (hdate e he)
  have hlen : events.length = 3 := by
    have hpl := hperm.length_eq
    rw [List.length_map] at hpl
    simpa using hpl
  have hne : eventsOnDate (events.foldl insertOk emptyDB).detection_results
      (2024, 3, 1) ≠ [] := by
    rw [hall]
    intro hc
    rw [hc] at hlen
    simp at hlen
  cases hl : lookupA (events.foldl insertOk emptyDB).defect_summary (2024, 3, 1) with
  | none => exact absurd (hS.2 _ hl) hne
  | some r =>
    have hp := hS.1 _ r hl
    have hcount : ∀ s : String, statusCount events s =
        (["Intact", "Damaged-Open", "Damaged-Open"].filter
          fun t => decide (t = s)).length := by
      intro s
      rw [statusCount_map, (hperm.filter fun t => decide (t = s)).length_eq]
    refine ⟨r, rfl, ?_, ?_, ?_, ?_⟩
    · rw [hp.1, hall, hlen]
    · rw [hp.2.1, hall, hcount "Intact"]
      decide
    · rw [hp.2.2.1, hall, hcount "Damaged-Deformed"]
      decide
    · rw [hp.2.2.2.1, hall, hcount "Damaged-Open"]
      decide

/-- Witness for C6: a concrete ordering Damaged-Open, Intact, Damaged-Open
of the three events on 2024-03-01. -/
theorem c6_witness :
    ∃ r, lookupA (runInserts [⟨⟨2024, 3, 1, 10, 0, 0⟩, "Damaged-Open", "a"⟩,
        ⟨⟨2024, 3, 1, 11, 0, 0⟩, "Intact", "b"⟩,
        ⟨⟨2024, 3, 1, 12, 0, 0⟩, "Damaged-Open", "c"⟩]).defect_summary
          (2024, 3, 1) = some r ∧
      r.total = 3 ∧ r.intact_count = 1 ∧ r.damaged_deformed_count = 0 ∧
      r.damaged_open_count = 2 :=
  c6_three_event_example
    [⟨⟨2024, 3, 1, 10, 0, 0⟩, "Damaged-Open", "a"⟩,
      ⟨⟨2024, 3, 1, 11, 0, 0⟩, "Intact", "b"⟩,
      ⟨⟨2024, 3, 1, 12, 0, 0⟩, "Damaged-Open", "c"⟩]
    (by decide) (by decide)

/-- Claim C2 counterexample: the trend table is keyed by month name only.
Inserting two events in March 2024 and then one in March 2025 leaves the
single "March" row holding the March-2025 recompute (total 1), while the
daily summaries of calendar month 2024-03 sum to 2 — so the claimed
equality fails for month 2024-03 although it has events. -/
theorem c2_counterexample :
    (∃ e ∈ [(⟨⟨2024, 3, 1, 10, 0, 0⟩, "Intact", "a"⟩ : EventRow),
        ⟨⟨2024, 3, 2, 11, 0, 0⟩, "Intact", "b"⟩,
        ⟨⟨2025, 3, 1, 12, 0, 0⟩, "Intact", "c"⟩],
      e.ts.year = 2024 ∧ e.ts.month = 3) ∧
    (lookupA (runInserts [⟨⟨2024, 3, 1, 10, 0, 0⟩, "Intact", "a"⟩,
        ⟨⟨2024, 3, 2, 11, 0, 0⟩, "Intact", "b"⟩,
        ⟨⟨2025, 3, 1, 12, 0, 0⟩, "Intact", "c"⟩]).defect_trends
          (monthName 3)).map RollupRow.total = some 1 ∧
    sumDailyTotals (runInserts [⟨⟨2024, 3, 1, 10, 0, 0⟩, "Intact", "a"⟩,
        ⟨⟨2024, 3, 2, 11, 0, 0⟩, "Intact", "b"⟩,
        ⟨⟨2025, 3, 1, 12, 0, 0⟩, "Intact", "c"⟩]) 2024 3 = 2 ∧
    (1 : Nat) ≠ 2 := by
  decide

/-- Claim C2 as amended: provided no two events of the sequence fall in
same-named months of different years (the `defect_trends` key is the bare
month name, so such months share one row), every calendar month with at
least one event has its MonthlyTrend row equal to the sum of the
DailySummary totals over that month's dates, after any number of repeated
inserts of the same event stream. -/
theorem c2_amended_monthly_consistency (events : List EventRow)
    (hvalid : ∀ e ∈ events, validTS e.ts)
    (hmyu : ∀ e1 ∈ events, ∀ e2 ∈ events, e1.ts.month = e2.ts.month →
      e1.ts.year = e2.ts.year)
    (y m : Nat) (hex : ∃ e ∈ events, e.ts.year = y ∧ e.ts.month = m) :
    ∃ r, lookupA (runInserts events).defect_trends (monthName m) = some r ∧
      r.total = sumDailyTotals (runInserts events) y m := by
  rw [runInserts_eq]
  obtain ⟨hS, hK, hlog⟩ := runInserts_S events emptyDB emptyDB_InvS emptyDB_SKeysND
  have hlogE : (events.foldl insertOk emptyDB).detection_results = events :=
    hlog.trans (by simp [emptyDB])
  have hT := runInserts_T events emptyDB emptyDB_InvT
    (by simpa [emptyDB] using hvalid) (by simpa [emptyDB] using hmyu)
  obtain ⟨e0, he0, hey, hem⟩ := hex
  have hexT : ∃ e ∈ (events.foldl insertOk emptyDB).detection_results,
      e.ts.year = y ∧ e.ts.month = m := by
    rw [hlogE]
    exact ⟨e0, he0, hey, hem⟩
  obtain ⟨r, hr, hrt⟩ := hT y m hexT
  refine ⟨r, hr, ?_⟩
  rw [hrt, sum_daily_eq _ hS hK y m]

/-- Witness for the amended C2: two events in distinct months of 2024. -/
theorem c2_amended_witness :
    ∃ r, lookupA (runInserts [⟨⟨2024, 3, 1, 10, 0, 0⟩, "Intact", "a"⟩,
        ⟨⟨2024, 4, 2, 11, 0, 0⟩, "Damaged-Open", "b"⟩]).defect_trends
          (monthName 3) = some r ∧
      r.total = sumDailyTotals (runInserts [⟨⟨2024, 3, 1, 10, 0, 0⟩, "Intact", "a"⟩,
        ⟨⟨2024, 4, 2, 11, 0, 0⟩, "Damaged-Open", "b"⟩]) 2024 3 :=
  c2_amended_monthly_consistency
    [⟨⟨2024, 3, 1, 10, 0, 0⟩, "Intact", "a"⟩,
      ⟨⟨2024, 4, 2, 11, 0, 0⟩, "Damaged-Open", "b"⟩]
    (by decide) (by decide) 2024 3 ⟨⟨⟨2024, 3, 1, 10, 0, 0⟩, "Intact", "a"⟩,
      by decide, by decide, by decide⟩

/-- Claim C1 counterexample: with a fault on the summary upsert only, one
`insert_result` call reports nothing to the caller (all sqlite errors are
caught and printed) while the log append stays committed — the operation
is partially applied, refuting atomicity with failure reporting. -/
theorem c1_counterexample :
    (WriteFault.mk false true false).failSummary = true ∧
    (insert_result ⟨false, true, false⟩ emptyDB ⟨2024, 3, 1, 12, 0, 0⟩
      "Intact" "box").2 = none ∧
    (insert_result ⟨false, true, false⟩ emptyDB ⟨2024, 3, 1, 12, 0, 0⟩
        "Intact" "box").1.detection_results ≠ emptyDB.detection_results := by
  decide

/-- Claim C1 as amended: `insert_result` never reports a storage failure to
the caller (every sqlite error is caught and printed, so the returned
report is always `none`); a failing log append leaves the database
untouched and skips both rollups, but a failing rollup upsert after a
successful log append leaves the appended event committed (the summary
table alone stays unchanged) — the three writes are not atomic. -/
theorem c1_amended_no_report_no_atomicity (fault : WriteFault) (db : DB)
    (ts : Timestamp) (status details : String) :
    (insert_result fault db ts status details).2 = none ∧
    (fault.failLog = true → (insert_result fault db ts status details).1 = db) ∧
    (fault.failLog = false →
      (insert_result fault db ts status details).1.detection_results =
        db.detection_results ++ [⟨ts, status, details⟩]) ∧
    (fault.failLog = false → fault.failSummary = true →
      (insert_result fault db ts status details).1.defect_summary =
        db.defect_summary) := by
  obtain ⟨fl, fs, ft⟩ := fault
  cases fl <;> cases fs <;> cases ft <;>
    simp [insert_result, update_trends_log, update_summary_log,
      update_trends_summary]

/-- Witness for the amended C1: a fault-free insert reports nothing and
appends the event; with a summary fault the summary table is unchanged. -/
theorem c1_amended_witness :
    (insert_result ⟨false, true, false⟩ emptyDB ⟨2024, 3, 1, 12, 0, 0⟩
        "Intact" "box").2 = none ∧
    (insert_result ⟨false, true, false⟩ emptyDB ⟨2024, 3, 1, 12, 0, 0⟩
        "Intact" "box").1.detection_results =
      emptyDB.detection_results ++ [⟨⟨2024, 3, 1, 12, 0, 0⟩, "Intact", "box"⟩] ∧
    (insert_result ⟨false, true, false⟩ emptyDB ⟨2024, 3, 1, 12, 0, 0⟩
        "Intact" "box").1.defect_summary = emptyDB.defect_summary :=
  ⟨(c1_amended_no_report_no_atomicity ⟨false, true, false⟩ emptyDB
      ⟨2024, 3, 1, 12, 0, 0⟩ "Intact" "box").1,
    (c1_amended_no_report_no_atomicity ⟨false, true, false⟩ emptyDB
      ⟨2024, 3, 1, 12, 0, 0⟩ "Intact" "box").2.2.1 rfl,
    (c1_amended_no_report_no_atomicity ⟨false, true, false⟩ emptyDB
      ⟨2024, 3, 1, 12, 0, 0⟩ "Intact" "box").2.2.2 rfl rfl⟩

end QualiScan
